import Mathlib

/-!
Verification of the ChatANON detection/text reconciliation engine.

Texts are modelled as `List Char`.  JavaScript string operations used by the
source (`indexOf`, `replace` with a global or global-case-insensitive regex
built from an escaped literal, the placeholder-token regex scan) are embedded
as executable Lean functions on `List Char`.  Regex escaping of the literal
pattern makes every match a literal (case-insensitive where the `i` flag is
set) substring match, which is what the embeddings implement.  JavaScript
`$`-substitution in replacement strings is outside the model; all replacement
strings appearing in the engine are placeholder tokens without `$`.
-/

namespace ChatAnon

/-- Shorthand: the character list of a string literal. -/
def str (s : String) : List Char := s.data

/-- ASCII lower-casing of one character, as performed by the `i` regex flag
on the ASCII range. -/
def lowerChar (c : Char) : Char :=
  if 'A' ≤ c ∧ c ≤ 'Z' then Char.ofNat (c.toNat + 32) else c

/-- Lower-casing of a character list. -/
def lowerStr (t : List Char) : List Char := t.map lowerChar

/-- `occursAt t x p`: the pattern `x` occurs in `t` starting at index `p`. -/
def occursAt (t x : List Char) (p : Nat) : Prop :=
  p + x.length ≤ t.length ∧ (t.drop p).take x.length = x

instance (t x : List Char) (p : Nat) : Decidable (occursAt t x p) := by
  unfold occursAt; infer_instance

/-- `x` is a contiguous substring of `t`. -/
def substrOf (x t : List Char) : Prop := ∃ p, occursAt t x p

theorem occursAt_le_length {t x : List Char} {p : Nat} (h : occursAt t x p) :
    p ≤ t.length := by
  have := h.1; omega

instance (x t : List Char) : Decidable (substrOf x t) := by
  refine decidable_of_iff (∃ p < t.length + 1, occursAt t x p) ?_
  constructor
  · rintro ⟨p, _, hp⟩; exact ⟨p, hp⟩
  · rintro ⟨p, hp⟩
    exact ⟨p, Nat.lt_succ_of_le (occursAt_le_length hp), hp⟩

theorem occursAt_iff_append {t x : List Char} {p : Nat} :
    occursAt t x p ↔ ∃ a b, t = a ++ x ++ b ∧ a.length = p := by
  constructor
  · rintro ⟨hle, htake⟩
    refine ⟨t.take p, t.drop (p + x.length), ?_, ?_⟩
    · have hd : t.drop p = x ++ t.drop (p + x.length) := by
        conv_lhs => rw [← List.take_append_drop x.length (t.drop p)]
        rw [htake, List.drop_drop]
      conv_lhs => rw [← List.take_append_drop p t, hd]
      rw [List.append_assoc]
    · simp [List.length_take]
      omega
  · rintro ⟨a, b, rfl, rfl⟩
    constructor
    · simp
    · rw [List.append_assoc, List.drop_left, List.take_left]

theorem occursAt_append_of_left {a c x : List Char} {p : Nat}
    (h : occursAt a x p) : occursAt (a ++ c) x p := by
  rcases occursAt_iff_append.mp h with ⟨u, v, rfl, rfl⟩
  exact occursAt_iff_append.mpr ⟨u, v ++ c, by simp, rfl⟩

theorem occursAt_within_left {a c x : List Char} {p : Nat}
    (h : occursAt (a ++ c) x p) (hle : p + x.length ≤ a.length) :
    occursAt a x p := by
  refine ⟨hle, ?_⟩
  have := h.2
  rwa [List.drop_append_of_le_length (by omega),
       List.take_append_of_le_length (by simp; omega)] at this

/-- Character extraction from an occurrence: the `j`-th character of the
pattern equals the `(p+j)`-th character of the text. -/
theorem occursAt_getElem {t x : List Char} {p : Nat} (h : occursAt t x p)
    {j : Nat} (hj : j < x.length) :
    t[p + j]? = some x[j] := by
  rcases occursAt_iff_append.mp h with ⟨a, b, rfl, rfl⟩
  rw [List.append_assoc, List.getElem?_append_right (by omega)]
  have : a.length + j - a.length = j := by omega
  rw [this, List.getElem?_append_left hj, List.getElem?_eq_getElem hj]

/-- Bounded least-witness search: the least `j` with `k ≤ j < k + fuel`
satisfying `p`. -/
def leastFrom (p : Nat → Bool) : Nat → Nat → Option Nat
  | 0, _ => none
  | fuel + 1, k => if p k then some k else leastFrom p fuel (k + 1)

theorem leastFrom_eq_some {p : Nat → Bool} {fuel k r : Nat}
    (h : leastFrom p fuel k = some r) :
    p r = true ∧ k ≤ r ∧ r < k + fuel ∧ ∀ j, k ≤ j → j < r → p j = false := by
  induction fuel generalizing k with
  | zero => simp [leastFrom] at h
  | succ n ih =>
    rw [leastFrom] at h
    by_cases hk : p k = true
    · rw [if_pos hk] at h
      cases h
      exact ⟨hk, Nat.le_refl _, by omega, fun j h1 h2 => by omega⟩
    · rw [if_neg hk] at h
      obtain ⟨h1, h2, h3, h4⟩ := ih h
      refine ⟨h1, by omega, by omega, fun j hj1 hj2 => ?_⟩
      by_cases hjk : j = k
      · subst hjk; exact Bool.eq_false_iff.mpr hk
      · exact h4 j (by omega) hj2

theorem leastFrom_eq_none {p : Nat → Bool} {fuel k : Nat}
    (h : leastFrom p fuel k = none) :
    ∀ j, k ≤ j → j < k + fuel → p j = false := by
  induction fuel generalizing k with
  | zero => intro j h1 h2; omega
  | succ n ih =>
    rw [leastFrom] at h
    by_cases hk : p k = true
    · rw [if_pos hk] at h; cases h
    · rw [if_neg hk] at h
      intro j h1 h2
      by_cases hjk : j = k
      · subst hjk; exact Bool.eq_false_iff.mpr hk
      · exact ih h j (by omega) (by omega)

theorem leastFrom_isSome {p : Nat → Bool} {fuel k j : Nat}
    (hj : k ≤ j) (hlt : j < k + fuel) (hp : p j = true) :
    ∃ r, leastFrom p fuel k = some r ∧ r ≤ j := by
  match hres : leastFrom p fuel k with
  | some r =>
    refine ⟨r, rfl, ?_⟩
    by_contra hlt'
    have := (leastFrom_eq_some hres).2.2.2 j hj (by omega)
    rw [hp] at this; cases this
  | none =>
    have := leastFrom_eq_none hres j hj hlt
    rw [hp] at this; cases this

/-- JavaScript `text.indexOf(pat, start)`: index of the first occurrence of
`pat` at or after `start`, `none` standing for `-1`. -/
def indexOfFrom (t x : List Char) (start : Nat) : Option Nat :=
  leastFrom (fun p => decide (start ≤ p ∧ occursAt t x p)) (t.length + 1) 0

/-- JavaScript `text.indexOf(pat)`. -/
def indexOfOpt (t x : List Char) : Option Nat := indexOfFrom t x 0

theorem indexOfFrom_eq_some {t x : List Char} {start r : Nat}
    (h : indexOfFrom t x start = some r) :
    start ≤ r ∧ occursAt t x r ∧ ∀ j, start ≤ j → j < r → ¬ occursAt t x j := by
  obtain ⟨h1, _, _, h4⟩ := leastFrom_eq_some h
  have hr := of_decide_eq_true h1
  refine ⟨hr.1, hr.2, fun j hj1 hj2 hocc => ?_⟩
  have := h4 j (Nat.zero_le _) hj2
  rw [decide_eq_false_iff_not] at this
  exact this ⟨hj1, hocc⟩

theorem indexOfFrom_eq_none {t x : List Char} {start : Nat}
    (h : indexOfFrom t x start = none) :
    ∀ j, start ≤ j → ¬ occursAt t x j := by
  intro j hj hocc
  have hjle : j < 0 + (t.length + 1) := by
    have := occursAt_le_length hocc; omega
  have := leastFrom_eq_none h j (Nat.zero_le _) hjle
  rw [decide_eq_false_iff_not] at this
  exact this ⟨hj, hocc⟩

theorem indexOfFrom_le {t x : List Char} {start j : Nat}
    (hj : start ≤ j) (hocc : occursAt t x j) :
    ∃ r, indexOfFrom t x start = some r ∧ r ≤ j := by
  have hjle : j < 0 + (t.length + 1) := by
    have := occursAt_le_length hocc; omega
  exact leastFrom_isSome (Nat.zero_le _) hjle
    (decide_eq_true ⟨hj, hocc⟩)

theorem occursAt_append_right_extract {a b x : List Char} {p : Nat}
    (h : occursAt (a ++ b) x p) (hge : a.length ≤ p) :
    occursAt b x (p - a.length) := by
  rcases occursAt_iff_append.mp h with ⟨u, v, huv, hulen⟩
  have hau : a = u.take a.length := by
    have h1 := congrArg (List.take a.length) huv
    rwa [List.take_left, List.append_assoc,
      List.take_append_of_le_length (by omega)] at h1
  have hu : u = a ++ u.drop a.length := by
    conv_lhs => rw [← List.take_append_drop a.length u, ← hau]
  rw [hu, List.append_assoc, List.append_assoc] at huv
  have hb : b = u.drop a.length ++ (x ++ v) := List.append_cancel_left huv
  refine occursAt_iff_append.mpr
    ⟨u.drop a.length, v, by rw [hb, List.append_assoc], ?_⟩
  simp [hulen]

theorem occursAt_append_shift {b x : List Char} {q : Nat} (a : List Char)
    (h : occursAt b x q) : occursAt (a ++ b) x (a.length + q) := by
  rcases occursAt_iff_append.mp h with ⟨u, v, rfl, rfl⟩
  exact occursAt_iff_append.mpr ⟨a ++ u, v, by simp, by simp⟩

theorem substrOf_of_append_right {x b : List Char} (a : List Char)
    (h : substrOf x b) : substrOf x (a ++ b) := by
  rcases h with ⟨p, hp⟩
  exact ⟨a.length + p, occursAt_append_shift a hp⟩

theorem substrOf_of_occursAt {x t : List Char} {p : Nat} (h : occursAt t x p) :
    substrOf x t := ⟨p, h⟩

/-- A prefix test `pat.isPrefixOf t` expressed through `occursAt`. -/
theorem isPrefixOf_iff_occursAt {pat t : List Char} :
    pat.isPrefixOf t = true ↔ occursAt t pat 0 := by
  rw [List.isPrefixOf_iff_prefix]
  constructor
  · rintro ⟨s, rfl⟩
    exact occursAt_iff_append.mpr ⟨[], s, rfl, rfl⟩
  · intro h
    rcases occursAt_iff_append.mp h with ⟨a, b, rfl, halen⟩
    have : a = [] := List.length_eq_zero.mp halen
    subst this
    exact ⟨b, rfl⟩

/-- Fuel-driven scanner for the start indices of the successive
non-overlapping left-to-right literal occurrences of `pat`, as found by a
JavaScript global regex built from the escaped pattern
(`new RegExp(escaped, 'g')` driven by repeated `exec`).  The fuel only
bounds the recursion depth (one unit per consumed character); it is
instantiated with the text length by the wrapper `occPositions`. -/
def occPositionsF (pat : List Char) : Nat → List Char → List Nat
  | 0, _ => []
  | _ + 1, [] => []
  | fuel + 1, c :: rest =>
    if pat ≠ [] ∧ pat.isPrefixOf (c :: rest) then
      0 :: (occPositionsF pat fuel ((c :: rest).drop pat.length)).map (· + pat.length)
    else
      (occPositionsF pat fuel rest).map (· + 1)

/-- Start indices of the non-overlapping literal occurrences of `pat`. -/
def occPositions (pat t : List Char) : List Nat := occPositionsF pat t.length t

theorem occPositionsF_fuel (pat : List Char) :
    ∀ fuel fuel' t, t.length ≤ fuel → t.length ≤ fuel' →
      occPositionsF pat fuel t = occPositionsF pat fuel' t := by
  intro fuel
  induction fuel with
  | zero =>
    intro fuel' t h _
    have : t = [] := List.length_eq_zero.mp (by omega)
    subst this
    cases fuel' <;> rfl
  | succ n ih =>
    intro fuel' t h h'
    cases t with
    | nil => cases fuel' <;> rfl
    | cons c rest =>
      cases fuel' with
      | zero => simp at h'
      | succ n' =>
        rw [occPositionsF, occPositionsF]
        by_cases hguard : pat ≠ [] ∧ pat.isPrefixOf (c :: rest)
        · rw [if_pos hguard, if_pos hguard]
          have hL : 1 ≤ pat.length :=
            List.length_pos.mpr hguard.1
          have hlen : ((c :: rest).drop pat.length).length ≤ n := by
            simp only [List.length_drop, List.length_cons]
            simp only [List.length_cons] at h
            omega
          have hlen' : ((c :: rest).drop pat.length).length ≤ n' := by
            simp only [List.length_drop, List.length_cons]
            simp only [List.length_cons] at h'
            omega
          rw [ih n' _ hlen hlen']
        · rw [if_neg hguard, if_neg hguard]
          have hlen : rest.length ≤ n := by
            simp only [List.length_cons] at h; omega
          have hlen' : rest.length ≤ n' := by
            simp only [List.length_cons] at h'; omega
          rw [ih n' _ hlen hlen']

theorem occPositions_nil (pat : List Char) : occPositions pat [] = [] := rfl

theorem occPositions_cons (pat : List Char) (c : Char) (rest : List Char) :
    occPositions pat (c :: rest) =
      if pat ≠ [] ∧ pat.isPrefixOf (c :: rest) then
        0 :: (occPositions pat ((c :: rest).drop pat.length)).map (· + pat.length)
      else
        (occPositions pat rest).map (· + 1) := by
  show occPositionsF pat (rest.length + 1) (c :: rest) = _
  rw [occPositionsF]
  by_cases hguard : pat ≠ [] ∧ pat.isPrefixOf (c :: rest)
  · rw [if_pos hguard, if_pos hguard]
    have hL : 1 ≤ pat.length := List.length_pos.mpr hguard.1
    rw [occPositionsF_fuel pat rest.length ((c :: rest).drop pat.length).length
      ((c :: rest).drop pat.length) (by simp; omega) (Nat.le_refl _)]
    rfl
  · rw [if_neg hguard, if_neg hguard]
    rfl

/-- Fuel-driven body of `applyInactiveOccurrences`'s inner `while` loop
(`ChatInterface`, src/unnamed/part_001): scan `t` for successive literal
occurrences of `pat` counting from `count`; when the running count reaches
`target`, splice `orig` over that single occurrence and stop.  An empty
`pat` (never produced by the engine, whose replacements are bracketed
tokens) is treated as matching nowhere. -/
def scanReplaceF (pat orig : List Char) (target : Nat) :
    Nat → List Char → Nat → List Char
  | 0, t, _ => t
  | _ + 1, [], _ => []
  | fuel + 1, c :: rest, count =>
    if pat ≠ [] ∧ pat.isPrefixOf (c :: rest) then
      if count = target then orig ++ (c :: rest).drop pat.length
      else (c :: rest).take pat.length ++
        scanReplaceF pat orig target fuel ((c :: rest).drop pat.length) (count + 1)
    else
      c :: scanReplaceF pat orig target fuel rest count

/-- The inner `while` loop of `applyInactiveOccurrences`. -/
def scanReplace (pat orig : List Char) (target : Nat) (t : List Char)
    (count : Nat) : List Char :=
  scanReplaceF pat orig target t.length t count

/-- Positional formulation of `scanReplace`: substitute `orig` over the
`k`-th (0-based) non-overlapping occurrence of `pat` in `t`, when it
exists. -/
def posReplace (t pat : List Char) (k : Nat) (orig : List Char) : List Char :=
  match (occPositions pat t)[k]? with
  | some q => t.take q ++ orig ++ t.drop (q + pat.length)
  | none => t

theorem scanReplace_eq_posReplace_aux (pat orig : List Char) (target : Nat) :
    ∀ fuel (t : List Char) (count : Nat), t.length ≤ fuel →
    scanReplaceF pat orig target fuel t count =
      if count ≤ target then
        match (occPositions pat t)[target - count]? with
        | some q => t.take q ++ orig ++ t.drop (q + pat.length)
        | none => t
      else t := by
  intro fuel
  induction fuel with
  | zero =>
    intro t count h
    have : t = [] := List.length_eq_zero.mp (by omega)
    subst this
    simp [scanReplaceF, occPositions_nil]
  | succ n ih =>
    intro t count h
    cases t with
    | nil => simp [scanReplaceF, occPositions_nil]
    | cons c rest =>
    simp only [List.length_cons] at h
    rw [scanReplaceF, occPositions_cons]
    by_cases hguard : pat ≠ [] ∧ pat.isPrefixOf (c :: rest)
    · have hL : 1 ≤ pat.length := List.length_pos.mpr hguard.1
      have hdrop : ((c :: rest).drop pat.length).length ≤ n := by
        simp only [List.length_drop, List.length_cons]; omega
      rw [if_pos hguard, if_pos hguard]
      by_cases heq : count = target
      · subst heq
        rw [if_pos rfl, if_pos (Nat.le_refl count), Nat.sub_self]
        simp
      · rw [if_neg heq, ih _ _ hdrop]
        by_cases hct : count ≤ target
        · have hct1 : count + 1 ≤ target := by omega
          rw [if_pos hct1, if_pos hct]
          have htc : target - count = (target - (count + 1)) + 1 := by omega
          rw [htc, List.getElem?_cons_succ, List.getElem?_map]
          cases hq : (occPositions pat ((c :: rest).drop pat.length))[target - (count + 1)]? with
          | none => simp [List.take_append_drop]
          | some q =>
            simp only [Option.map_some']
            rw [← List.append_assoc, ← List.append_assoc]
            congr 1
            · congr 1
              rw [Nat.add_comm q pat.length, List.take_add]
            · rw [List.drop_drop,
                show pat.length + (q + pat.length) = q + pat.length + pat.length by omega]
        · have hct1 : ¬ (count + 1 ≤ target) := by omega
          rw [if_neg hct1, if_neg hct, List.take_append_drop]
    · rw [if_neg hguard, if_neg hguard, ih _ _ (by omega)]
      by_cases hct : count ≤ target
      · rw [if_pos hct, if_pos hct, List.getElem?_map]
        cases hq : (occPositions pat rest)[target - count]? with
        | none => simp
        | some q =>
          simp only [Option.map_some']
          rw [show q + 1 + pat.length = (q + pat.length) + 1 by omega]
          simp [List.take_succ_cons, List.drop_succ_cons]
      · rw [if_neg hct, if_neg hct]

/-- The counting `while` loop and the positional formulation agree. -/
theorem scanReplace_eq_posReplace (t pat orig : List Char) (k : Nat) :
    scanReplace pat orig k t 0 = posReplace t pat k orig := by
  rw [scanReplace,
    scanReplace_eq_posReplace_aux pat orig k t.length t 0 (Nat.le_refl _),
    if_pos (Nat.zero_le k), posReplace, Nat.sub_zero]

/-- Fuel-driven `replacementPositions` loop of `handleReplaceAll`
(`TextSelectionReplacer.tsx`): repeated `indexOf` collecting every
occurrence position, resuming after each match.  An empty pattern (never
produced: placeholders are bracketed tokens) is treated as matching
nowhere. -/
def findAllFromF (t pat : List Char) : Nat → Nat → List Nat
  | 0, _ => []
  | fuel + 1, start =>
    if pat = [] then []
    else
      match indexOfFrom t pat start with
      | none => []
      | some pos => pos :: findAllFromF t pat fuel (pos + pat.length)

/-- The `replacementPositions` collection loop. -/
def findAllFrom (t pat : List Char) (start : Nat) : List Nat :=
  findAllFromF t pat (t.length + 1 - start) start

theorem findAllFromF_none {t pat : List Char} {start : Nat} (fuel : Nat)
    (hst : t.length + 1 ≤ start) : findAllFromF t pat fuel start = [] := by
  cases fuel with
  | zero => rfl
  | succ n =>
    simp only [findAllFromF]
    by_cases hpat : pat = []
    · rw [if_pos hpat]
    · rw [if_neg hpat]
      cases hidx : indexOfFrom t pat start with
      | none => rfl
      | some pos =>
        exfalso
        have h1 := indexOfFrom_eq_some hidx
        have h2 := occursAt_le_length h1.2.1
        omega

theorem findAllFromF_fuel (t pat : List Char) :
    ∀ fuel fuel' start, t.length + 1 - start ≤ fuel →
      t.length + 1 - start ≤ fuel' →
      findAllFromF t pat fuel start = findAllFromF t pat fuel' start := by
  intro fuel
  induction fuel with
  | zero =>
    intro fuel' start h _
    rw [findAllFromF_none 0 (by omega), findAllFromF_none fuel' (by omega)]
  | succ n ih =>
    intro fuel' start h h'
    by_cases hst : t.length + 1 ≤ start
    · rw [findAllFromF_none _ hst, findAllFromF_none _ hst]
    cases fuel' with
    | zero => omega
    | succ n' =>
      simp only [findAllFromF]
      by_cases hpat : pat = []
      · rw [if_pos hpat, if_pos hpat]
      · rw [if_neg hpat, if_neg hpat]
        cases hidx : indexOfFrom t pat start with
        | none => rfl
        | some pos =>
          have h1 := indexOfFrom_eq_some hidx
          have h2 := occursAt_le_length h1.2.1
          have hL : 1 ≤ pat.length := List.length_pos.mpr hpat
          show pos :: findAllFromF t pat n (pos + pat.length) =
            pos :: findAllFromF t pat n' (pos + pat.length)
          rw [ih n' (pos + pat.length) (by omega) (by omega)]

theorem findAllFrom_step (t pat : List Char) (start : Nat) (hpat : pat ≠ []) :
    findAllFrom t pat start =
      match indexOfFrom t pat start with
      | none => []
      | some pos => pos :: findAllFrom t pat (pos + pat.length) := by
  rw [findAllFrom]
  by_cases hst : t.length + 1 ≤ start
  · rw [findAllFromF_none _ hst]
    cases hidx : indexOfFrom t pat start with
    | none => rfl
    | some pos =>
      exfalso
      have h1 := indexOfFrom_eq_some hidx
      have h2 := occursAt_le_length h1.2.1
      omega
  · have hm : t.length + 1 - start = (t.length - start) + 1 := by omega
    rw [hm]
    simp only [findAllFromF]
    rw [if_neg hpat]
    cases hidx : indexOfFrom t pat start with
    | none => rfl
    | some pos =>
      have h1 := indexOfFrom_eq_some hidx
      have h2 := occursAt_le_length h1.2.1
      have hL : 1 ≤ pat.length := List.length_pos.mpr hpat
      show pos :: findAllFromF t pat (t.length - start) (pos + pat.length) =
        pos :: findAllFrom t pat (pos + pat.length)
      rw [findAllFrom,
        findAllFromF_fuel t pat (t.length - start) (t.length + 1 - (pos + pat.length))
          (pos + pat.length) (by omega) (Nat.le_refl _)]

/-- Fuel-driven greedy left-to-right scan of a case-insensitive global
regex built from the escaped literal `pat` (`new RegExp(escaped, 'gi')`):
returns the list of inter-match segments and the list of matched slices.
The text is the alternation segment/match/segment/…/segment. -/
def ciScanF (pat : List Char) : Nat → List Char → List (List Char) × List (List Char)
  | 0, t => ([t], [])
  | _ + 1, [] => ([[]], [])
  | fuel + 1, c :: rest =>
    if pat ≠ [] ∧ (lowerStr pat).isPrefixOf (lowerStr (c :: rest)) then
      let p := ciScanF pat fuel ((c :: rest).drop pat.length)
      ([] :: p.1, (c :: rest).take pat.length :: p.2)
    else
      match ciScanF pat fuel rest with
      | (s :: ss, ms) => ((c :: s) :: ss, ms)
      | ([], ms) => ([[c]], ms)

/-- The case-insensitive global scan. -/
def ciScan (pat t : List Char) : List (List Char) × List (List Char) :=
  ciScanF pat t.length t

theorem ciScanF_fuel (pat : List Char) :
    ∀ fuel fuel' t, t.length ≤ fuel → t.length ≤ fuel' →
      ciScanF pat fuel t = ciScanF pat fuel' t := by
  intro fuel
  induction fuel with
  | zero =>
    intro fuel' t h _
    have : t = [] := List.length_eq_zero.mp (by omega)
    subst this
    cases fuel' <;> rfl
  | succ n ih =>
    intro fuel' t h h'
    cases t with
    | nil => cases fuel' <;> rfl
    | cons c rest =>
      cases fuel' with
      | zero => simp at h'
      | succ n' =>
        simp only [List.length_cons] at h h'
        rw [ciScanF, ciScanF]
        by_cases hguard : pat ≠ [] ∧ (lowerStr pat).isPrefixOf (lowerStr (c :: rest))
        · have hL : 1 ≤ pat.length := List.length_pos.mpr hguard.1
          rw [if_pos hguard, if_pos hguard]
          rw [ih n' ((c :: rest).drop pat.length) (by simp; omega) (by simp; omega)]
        · rw [if_neg hguard, if_neg hguard]
          rw [ih n' rest (by omega) (by omega)]

theorem ciScan_nil (pat : List Char) : ciScan pat [] = ([[]], []) := rfl

theorem ciScan_cons (pat : List Char) (c : Char) (rest : List Char) :
    ciScan pat (c :: rest) =
      if pat ≠ [] ∧ (lowerStr pat).isPrefixOf (lowerStr (c :: rest)) then
        (([] : List Char) :: (ciScan pat ((c :: rest).drop pat.length)).1,
          (c :: rest).take pat.length :: (ciScan pat ((c :: rest).drop pat.length)).2)
      else
        match ciScan pat rest with
        | (s :: ss, ms) => ((c :: s) :: ss, ms)
        | ([], ms) => ([[c]], ms) := by
  show ciScanF pat (rest.length + 1) (c :: rest) = _
  rw [ciScanF]
  by_cases hguard : pat ≠ [] ∧ (lowerStr pat).isPrefixOf (lowerStr (c :: rest))
  · have hL : 1 ≤ pat.length := List.length_pos.mpr hguard.1
    rw [if_pos hguard, if_pos hguard]
    rw [ciScanF_fuel pat rest.length ((c :: rest).drop pat.length).length
      ((c :: rest).drop pat.length) (by simp; omega) (Nat.le_refl _)]
    rfl
  · rw [if_neg hguard, if_neg hguard]
    rfl

/-- Segments of the case-insensitive global scan. -/
def ciSplit (t pat : List Char) : List (List Char) := (ciScan pat t).1

/-- Matched slices of the case-insensitive global scan. -/
def ciMats (t pat : List Char) : List (List Char) := (ciScan pat t).2

/-- Interleave segments and matched slices back into the original text. -/
def joinAlt : List (List Char) → List (List Char) → List Char
  | [], _ => []
  | s :: _, [] => s
  | s :: ss, m :: ms => s ++ m ++ joinAlt ss ms

/-- Join the segments with a fixed separator: the result of a global
`replace` of every match by `sep`. -/
def joinWith (sep : List Char) : List (List Char) → List Char
  | [] => []
  | [s] => s
  | s :: s1 :: ss => s ++ sep ++ joinWith sep (s1 :: ss)

/-- Junction positions: where the separator of length `L` sits inside
`joinWith` of the given segments. -/
def jpositions (L : Nat) : List (List Char) → List Nat
  | [] => []
  | [_] => []
  | s :: s1 :: ss =>
    s.length :: (jpositions L (s1 :: ss)).map (· + (s.length + L))

/-- JavaScript `text.replace(new RegExp(escapedPat, 'gi'), rep)`. -/
def ciReplaceAll (t pat rep : List Char) : List Char :=
  joinWith rep (ciSplit t pat)

/-- Start positions of the case-insensitive matches of `pat` in `t`. -/
def matchPositionsCI (t pat : List Char) : List Nat :=
  jpositions pat.length (ciSplit t pat)

theorem ciScan_spec (pat : List Char) : ∀ t : List Char,
    (ciScan pat t).1.length = (ciScan pat t).2.length + 1 ∧
    joinAlt (ciScan pat t).1 (ciScan pat t).2 = t ∧
    ∀ m ∈ (ciScan pat t).2, m.length = pat.length ∧ lowerStr m = lowerStr pat := by
  suffices main : ∀ n (t : List Char), t.length ≤ n →
      (ciScan pat t).1.length = (ciScan pat t).2.length + 1 ∧
      joinAlt (ciScan pat t).1 (ciScan pat t).2 = t ∧
      ∀ m ∈ (ciScan pat t).2, m.length = pat.length ∧ lowerStr m = lowerStr pat by
    exact fun t => main t.length t (Nat.le_refl _)
  intro n
  induction n with
  | zero =>
    intro t ht
    have : t = [] := List.length_eq_zero.mp (by omega)
    subst this
    rw [ciScan_nil]
    simp [joinAlt]
  | succ n ih =>
    intro t ht
    cases t with
    | nil =>
      rw [ciScan_nil]
      simp [joinAlt]
    | cons c rest =>
    simp only [List.length_cons] at ht
    rw [ciScan_cons]
    by_cases hguard : pat ≠ [] ∧ (lowerStr pat).isPrefixOf (lowerStr (c :: rest))
    · rw [if_pos hguard]
      have hL : 1 ≤ pat.length := List.length_pos.mpr hguard.1
      obtain ⟨ih1, ih2, ih3⟩ := ih ((c :: rest).drop pat.length) (by simp; omega)
      have hlen : pat.length ≤ (c :: rest).length := by
        have := List.IsPrefix.length_le (List.isPrefixOf_iff_prefix.mp hguard.2)
        simpa [lowerStr] using this
      refine ⟨by simpa using ih1, ?_, ?_⟩
      · show [] ++ (c :: rest).take pat.length ++ _ = c :: rest
        rw [List.nil_append, ih2, List.take_append_drop]
      · intro m hm
        rcases List.mem_cons.mp hm with rfl | hm'
        · constructor
          · rw [List.length_take]
            simp only [List.length_cons] at hlen ⊢
            omega
          · have hp := List.isPrefixOf_iff_prefix.mp hguard.2
            rcases hp with ⟨tl, htl⟩
            have hlow := congrArg (List.take pat.length) htl
            rw [List.take_append_of_le_length (by simp [lowerStr])] at hlow
            rw [List.take_of_length_le (by simp [lowerStr])] at hlow
            simp only [lowerStr] at hlow ⊢
            rw [List.map_take]
            exact hlow.symm
        · exact ih3 m hm'
    · rw [if_neg hguard]
      obtain ⟨ih1, ih2, ih3⟩ := ih rest (by omega)
      match hrest : ciScan pat rest with
      | ([], ms) =>
        rw [hrest] at ih1
        simp at ih1
      | (s :: ss, ms) =>
        rw [hrest] at ih1 ih2 ih3
        refine ⟨by simpa using ih1, ?_, ih3⟩
        cases ms with
        | nil =>
          have : ss = [] := by simpa using ih1
          subst this
          simp only [joinAlt] at ih2 ⊢
          rw [ih2]
        | cons m ms' =>
          simp only [joinAlt, List.cons_append, List.append_assoc] at ih2 ⊢
          rw [ih2]

theorem ciSplit_length (t pat : List Char) :
    (ciSplit t pat).length = (ciMats t pat).length + 1 :=
  (ciScan_spec pat t).1

theorem ciSplit_join (t pat : List Char) :
    joinAlt (ciSplit t pat) (ciMats t pat) = t :=
  (ciScan_spec pat t).2.1

theorem ciMats_prop (t pat : List Char) :
    ∀ m ∈ ciMats t pat, m.length = pat.length ∧ lowerStr m = lowerStr pat :=
  (ciScan_spec pat t).2.2

/-- Every segment of an interleaving is a substring of the whole. -/
theorem substrOf_of_mem_joinAlt :
    ∀ (segs mats : List (List Char)) (s : List Char),
      segs.length = mats.length + 1 → s ∈ segs → substrOf s (joinAlt segs mats)
  | [], _, s, _, hs => by cases hs
  | s0 :: ss, [], s, hlen, hs => by
    have : ss = [] := by simpa using hlen
    subst this
    rcases List.mem_singleton.mp hs with rfl
    exact ⟨0, by constructor <;> simp [joinAlt]⟩
  | s0 :: ss, m :: ms, s, hlen, hs => by
    rcases List.mem_cons.mp hs with rfl | hs'
    · exact ⟨0, occursAt_iff_append.mpr
        ⟨[], m ++ joinAlt ss ms, by simp [joinAlt, List.append_assoc], rfl⟩⟩
    · have := substrOf_of_mem_joinAlt ss ms s (by simpa using hlen) hs'
      show substrOf s (s0 ++ m ++ joinAlt ss ms)
      rw [List.append_assoc]
      exact substrOf_of_append_right _ (substrOf_of_append_right _ this)

/-- Junction positions are separated by at least the separator length. -/
theorem jpositions_pairwise (L : Nat) :
    ∀ segs, List.Pairwise (fun a b => a + L ≤ b) (jpositions L segs)
  | [] => by simp [jpositions]
  | [s] => by simp [jpositions]
  | s :: s1 :: ss => by
    rw [jpositions]
    constructor
    · intro q hq
      rcases List.mem_map.mp hq with ⟨q', _, rfl⟩
      omega
    · have := jpositions_pairwise L (s1 :: ss)
      refine List.Pairwise.map _ ?_ this
      intro a b hab
      omega

/-- Occurrence characterization for a bracket-shaped separator: in
`joinWith r segs`, the separator `r` (which starts with `[`, ends with `]`,
and contains no other `[` or `]`) occurs exactly at the junction positions,
provided it occurs inside no segment. -/
theorem occursAt_joinWith_iff {r : List Char} (hr : r ≠ [])
    (hhead : r[0]? = some '[')
    (hint1 : ∀ j, 0 < j → r[j]? ≠ some '[')
    (hlast : r[r.length - 1]? = some ']')
    (hint2 : ∀ j, j < r.length - 1 → r[j]? ≠ some ']')
    (segs : List (List Char)) :
    (∀ s ∈ segs, ¬ substrOf r s) →
      ∀ p, occursAt (joinWith r segs) r p ↔ p ∈ jpositions r.length segs := by
  have hL : 1 ≤ r.length := List.length_pos.mpr hr
  induction segs using jpositions.induct r.length with
  | case1 =>
    intro _ p
    simp only [joinWith, jpositions, List.not_mem_nil, iff_false]
    intro hocc
    have h0 := hocc.1
    rw [List.length_nil] at h0
    exact hr (List.length_eq_zero.mp (by omega))
  | case2 s =>
    intro hsegs p
    simp only [joinWith, jpositions, List.not_mem_nil, iff_false]
    intro hocc
    exact hsegs s (List.mem_singleton.mpr rfl) ⟨p, hocc⟩
  | case3 s s1 ss ih =>
    intro hsegs p
    set L := r.length with hLdef
    set J := joinWith r (s1 :: ss) with hJ
    set n := s.length with hn
    have hjoin : joinWith r (s :: s1 :: ss) = s ++ r ++ J := by
      rw [joinWith]
    have hIH := ih (fun x hx => hsegs x (List.mem_cons_of_mem s hx))
    rw [hjoin, jpositions]
    constructor
    · intro hocc
      by_cases hp1 : p + L ≤ n
      · exfalso
        have h1 : occursAt (s ++ r) r p := by
          refine occursAt_within_left hocc ?_
          simp only [List.length_append]
          omega
        have h2 : occursAt s r p := occursAt_within_left h1 (by omega)
        exact hsegs s (List.mem_cons_self s _) ⟨p, h2⟩
      by_cases hp2 : n ≤ p
      · have hocc' : occursAt (r ++ J) r (p - n) := by
          have := occursAt_append_right_extract
            (a := s) (b := r ++ J) (p := p)
            (by rwa [← List.append_assoc]) (by omega)
          exact this
        rcases Nat.lt_trichotomy (p - n) L with hq | hq | hq
        · rcases Nat.eq_zero_or_pos (p - n) with hq0 | hq0
          · have hps : p = s.length := by omega
            rw [hps]
            exact List.mem_cons_self _ _
          · exfalso
            have hr0 : r[0]? = some (r.get ⟨0, by omega⟩) :=
              List.getElem?_eq_getElem (by omega)
            have hc1 := occursAt_getElem hocc' (j := 0) (by omega)
            rw [Nat.add_zero, List.getElem?_append_left hq] at hc1
            have : r[p - n]? = some '[' := by
              rw [hc1]
              have := hhead.symm.trans hr0
              simp only [Option.some.injEq] at this
              rw [this]
              rfl
            exact hint1 (p - n) hq0 this
        · -- p - n = L : the occurrence starts right at the end of the
          -- separator region, i.e. at offset 0 of `J`... impossible:
          -- that is the next junction region handled below.  Actually
          -- `p - n = L` means the occurrence lies wholly in `J` at 0.
          have hocc2 : occursAt J r (p - n - L) :=
            occursAt_append_right_extract hocc' (by omega)
          rcases (hIH (p - n - L)).mp hocc2 with hmem
          exact List.mem_cons_of_mem _
            (List.mem_map.mpr ⟨p - n - L, hmem, by omega⟩)
        · have hocc2 : occursAt J r (p - n - L) :=
            occursAt_append_right_extract hocc' (by omega)
          rcases (hIH (p - n - L)).mp hocc2 with hmem
          exact List.mem_cons_of_mem _
            (List.mem_map.mpr ⟨p - n - L, hmem, by omega⟩)
      · exfalso
        have hpn : p < n := by omega
        have hstraddle : n < p + L := by omega
        have hcL : (s ++ r ++ J)[p + (L - 1)]? = some (r.get ⟨L - 1, by omega⟩) :=
          occursAt_getElem hocc (j := L - 1) (by omega)
        have hrL : r[L - 1]? = some (r.get ⟨L - 1, by omega⟩) :=
          List.getElem?_eq_getElem (by omega)
        have hrlast : r.get ⟨L - 1, by omega⟩ = ']' := by
          have := hrL.symm.trans hlast
          simpa using this
        have hidx : (s ++ (r ++ J))[p + (L - 1)]? = (r ++ J)[p + (L - 1) - n]? :=
          List.getElem?_append_right (by omega)
        have hidx2 : (r ++ J)[p + (L - 1) - n]? = r[p + (L - 1) - n]? :=
          List.getElem?_append_left (by omega)
        have : r[p + (L - 1) - n]? = some ']' := by
          rw [← hidx2, ← hidx, ← List.append_assoc, hcL, hrlast]
        exact hint2 (p + (L - 1) - n) (by omega) this
    · intro hmem
      rcases List.mem_cons.mp hmem with rfl | hmem'
      · exact occursAt_iff_append.mpr ⟨s, J, rfl, rfl⟩
      · rcases List.mem_map.mp hmem' with ⟨x, hx, rfl⟩
        have hocc : occursAt J r x := (hIH x).mpr hx
        have := occursAt_append_shift (s ++ r) hocc
        rw [List.append_assoc] at this
        have hlen : (s ++ r).length = n + L := by simp
        rw [hlen] at this
        rw [← List.append_assoc] at this
        have hcomm : n + L + x = x + (n + L) := by omega
        rwa [hcomm] at this

/-- `findAllFrom` returns exactly a given position list when that list is
exactly the set of occurrences at or after `start` and consecutive
positions are separated by at least the pattern length. -/
theorem findAllFrom_eq {t pat : List Char} (hpat : pat ≠ []) :
    ∀ (ps : List Nat) (start : Nat),
      List.Pairwise (fun a b => a + pat.length ≤ b) ps →
      (∀ p, (occursAt t pat p ∧ start ≤ p) ↔ p ∈ ps) →
      findAllFrom t pat start = ps := by
  intro ps
  induction ps with
  | nil =>
    intro start _ hiff
    rw [findAllFrom_step t pat start hpat]
    cases hidx : indexOfFrom t pat start with
    | none => rfl
    | some pos =>
      exfalso
      have h := indexOfFrom_eq_some hidx
      have := (hiff pos).mp ⟨h.2.1, h.1⟩
      simp at this
  | cons q qs ih =>
    intro start hpw hiff
    have hL : 1 ≤ pat.length := List.length_pos.mpr hpat
    have hq : occursAt t pat q ∧ start ≤ q :=
      (hiff q).mpr (List.mem_cons_self q qs)
    obtain ⟨r, hr, hrle⟩ := indexOfFrom_le hq.2 hq.1
    have hrprops := indexOfFrom_eq_some hr
    have hrmem : r ∈ q :: qs := (hiff r).mp ⟨hrprops.2.1, hrprops.1⟩
    have hrq : r = q := by
      rcases List.mem_cons.mp hrmem with rfl | hmem
      · rfl
      · have := (List.pairwise_cons.mp hpw).1 r hmem
        omega
    subst hrq
    rw [findAllFrom_step t pat start hpat, hr]
    show r :: findAllFrom t pat (r + pat.length) = r :: qs
    congr 1
    apply ih
    · exact (List.pairwise_cons.mp hpw).2
    · intro p
      constructor
      · rintro ⟨hocc, hge⟩
        have hmem := (hiff p).mp ⟨hocc, by omega⟩
        rcases List.mem_cons.mp hmem with rfl | h
        · omega
        · exact h
      · intro hmem
        have hple := (List.pairwise_cons.mp hpw).1 p hmem
        have hmem' : occursAt t pat p ∧ start ≤ p :=
          (hiff p).mpr (List.mem_cons_of_mem _ hmem)
        exact ⟨hmem'.1, by omega⟩

/-- Every reported occurrence position is an actual occurrence. -/
theorem occPositions_occursAt (pat : List Char) :
    ∀ (t : List Char) (p : Nat), p ∈ occPositions pat t → occursAt t pat p := by
  suffices main : ∀ n (t : List Char), t.length ≤ n →
      ∀ p ∈ occPositions pat t, occursAt t pat p by
    exact fun t p hp => main t.length t (Nat.le_refl _) p hp
  intro n
  induction n with
  | zero =>
    intro t ht p hp
    have : t = [] := List.length_eq_zero.mp (by omega)
    subst this
    rw [occPositions_nil] at hp
    cases hp
  | succ n ih =>
    intro t ht p hp
    cases t with
    | nil => rw [occPositions_nil] at hp; cases hp
    | cons c rest =>
    simp only [List.length_cons] at ht
    rw [occPositions_cons] at hp
    by_cases hguard : pat ≠ [] ∧ pat.isPrefixOf (c :: rest)
    · rw [if_pos hguard] at hp
      have hL : 1 ≤ pat.length := List.length_pos.mpr hguard.1
      rcases List.mem_cons.mp hp with rfl | hp'
      · exact isPrefixOf_iff_occursAt.mp hguard.2
      · rcases List.mem_map.mp hp' with ⟨q, hq, rfl⟩
        have hocc := ih ((c :: rest).drop pat.length) (by simp; omega) q hq
        have hpre := isPrefixOf_iff_occursAt.mp hguard.2
        have hlen : pat.length ≤ (c :: rest).length := by
          have := hpre.1; omega
        have := occursAt_append_shift ((c :: rest).take pat.length) hocc
        rw [List.take_append_drop] at this
        rwa [List.length_take, Nat.min_eq_left hlen, Nat.add_comm] at this
    · rw [if_neg hguard] at hp
      rcases List.mem_map.mp hp with ⟨q, hq, rfl⟩
      have hocc := ih rest (by omega) q hq
      have := occursAt_append_shift [c] hocc
      simpa [Nat.add_comm] using this

/-!  ## Data model

`Detection` mirrors the `PIIDetection` record of
`src/frontend/src/types/index.ts`: `type`, `original`, `replacement`,
`confidence` (a float in `[0,1]`, modelled as a rational), optional
`explanation`, and the optional occurrence-order index `i`.  The unused
optional `start_position`/`end_position` fields are omitted: no engine
operation reads them. -/

structure Detection where
  type : List Char
  original : List Char
  replacement : List Char
  confidence : ℚ
  explanation : Option (List Char)
  i : Option Nat
deriving DecidableEq

/-- Stable insertion into a descending-sorted list: the new element goes
after every element of greater-or-equal rank.  This realizes a stable
sort with the JavaScript comparator `(a, b) => rank b - rank a`. -/
def insDesc {α : Type} (rank : α → Nat) (x : α) : List α → List α
  | [] => [x]
  | y :: ys => if rank y < rank x then x :: y :: ys else y :: insDesc rank x ys

/-- Stable descending sort by a numeric rank, as produced by the (stable)
JavaScript `Array.prototype.sort` with comparator `(a, b) => rank b - rank a`. -/
def sortDescBy {α : Type} (rank : α → Nat) (l : List α) : List α :=
  l.foldl (fun acc x => insDesc rank x acc) []

/-- The filter-and-sort prefix of `applyInactiveOccurrences`
(`ChatInterface`, src/unnamed/part_001): keep the detections whose defined
`i` is in the inactive set, sorted by `i` descending. -/
def inactiveSortedDesc (detections : List Detection)
    (inactiveIndices : Finset Nat) : List Detection :=
  sortDescBy (fun d => d.i.getD 0)
    (detections.filter
      (fun d => d.i.isSome && decide (d.i.getD 0 ∈ inactiveIndices)))

/-- `applyInactiveOccurrences` (`ChatInterface`, src/unnamed/part_001):
derive the effective export text by, for each inactive detection in
descending `i` order, scanning the current text for occurrences of its
`replacement` and splicing `original` over the occurrence whose running
count equals the detection's global index `i`. -/
def applyInactiveOccurrences (text : List Char) (detections : List Detection)
    (inactiveIndices : Finset Nat) : List Char :=
  (inactiveSortedDesc detections inactiveIndices).foldl
    (fun adjustedText d =>
      scanReplace d.replacement d.original (d.i.getD 0) adjustedText 0)
    text

/-- Positional restatement of the same procedure: each inactive detection
substitutes the occurrence of its `replacement` whose 0-based ordinal
among all occurrences in the current text equals the detection's global
index `i` (no change when fewer occurrences exist). -/
def exportReversalByIndex (text : List Char) (detections : List Detection)
    (inactiveIndices : Finset Nat) : List Char :=
  (inactiveSortedDesc detections inactiveIndices).foldl
    (fun adjustedText d =>
      posReplace adjustedText d.replacement (d.i.getD 0) d.original)
    text

/-- The ordinal of a detection among the detections sharing its
`replacement`, in `i` order: the count of same-`replacement` detections
with smaller `i` (the expected ordinal of §4.1 of the specification). -/
def sameRepOrdinal (detections : List Detection) (d : Detection) : Nat :=
  (detections.filter (fun e =>
    decide (e.replacement = d.replacement) &&
    decide (e.i.getD 0 < d.i.getD 0))).length

/-- The Export Reversal procedure as worded by the specification: each
inactive detection substitutes the occurrence of its `replacement` whose
ordinal equals the detection's expected ordinal among same-`replacement`
detections. -/
def exportReversalSpec (text : List Char) (detections : List Detection)
    (inactiveIndices : Finset Nat) : List Char :=
  (inactiveSortedDesc detections inactiveIndices).foldl
    (fun adjustedText d =>
      posReplace adjustedText d.replacement (sameRepOrdinal detections d) d.original)
    text

/-- Scenario A of the specification: text and detections. -/
def scenarioAText : List Char := str "Contact [NAME_1] at [EMAIL]."

/-- Scenario A detections (occurrence indices 0 and 1). -/
def scenarioADets : List Detection :=
  [{ type := str "name", original := str "John Smith",
     replacement := str "[NAME_1]", confidence := (95 : ℚ)/100,
     explanation := none, i := some 0 },
   { type := str "email", original := str "j@x.com",
     replacement := str "[EMAIL]", confidence := (99 : ℚ)/100,
     explanation := none, i := some 1 }]

/-- C1 counterexample: in Scenario A, deactivating occurrence 1 (the
`[EMAIL]` detection, whose placeholder occurs exactly once) leaves the
export text unchanged under `applyInactiveOccurrences` — the inner loop
counts occurrences of `[EMAIL]` against the global index 1, which is never
reached — whereas the specification's per-replacement-ordinal procedure
substitutes it back. -/
theorem c1_counterexample :
    applyInactiveOccurrences scenarioAText scenarioADets ({1} : Finset Nat) ≠
      exportReversalSpec scenarioAText scenarioADets ({1} : Finset Nat) := by
  decide

/-- C1 (amended): `applyInactiveOccurrences` processes inactive detections
in descending `i` order and, for each, substitutes the occurrence of its
`replacement` whose 0-based ordinal among all occurrences of that
`replacement` in the current text equals the detection's global index `i`
(not its ordinal among same-`replacement` detections); when fewer
occurrences exist the detection is left redacted.  Consequently a
deactivated detection whose placeholder occurs exactly once is substituted
back only when its global index is 0: with a positive index the text is
unchanged, and with index 0 the unique occurrence is spliced. -/
theorem c1_export_reversal_amended :
    (∀ (text : List Char) (detections : List Detection)
        (inactiveIndices : Finset Nat),
      applyInactiveOccurrences text detections inactiveIndices =
        exportReversalByIndex text detections inactiveIndices) ∧
    (∀ (t pat orig : List Char) (k : Nat),
      (occPositions pat t).length = 1 → 0 < k → posReplace t pat k orig = t) ∧
    (∀ (t pat orig : List Char), (occPositions pat t).length = 1 →
      ∃ q, occursAt t pat q ∧
        posReplace t pat 0 orig = t.take q ++ orig ++ t.drop (q + pat.length)) := by
  refine ⟨?_, ?_, ?_⟩
  · intro text ds inact
    unfold applyInactiveOccurrences exportReversalByIndex
    rw [show (fun adjustedText d =>
        scanReplace d.replacement d.original (d.i.getD 0) adjustedText 0) =
        (fun adjustedText (d : Detection) =>
          posReplace adjustedText d.replacement (d.i.getD 0) d.original) from
      funext fun t => funext fun d =>
        scanReplace_eq_posReplace t d.replacement d.original (d.i.getD 0)]
  · intro t pat orig k h1 hk
    unfold posReplace
    rw [List.getElem?_eq_none (by omega)]
  · intro t pat orig h1
    obtain ⟨q, hq⟩ : ∃ q, occPositions pat t = [q] := by
      match hl : occPositions pat t with
      | [q] => exact ⟨q, rfl⟩
      | [] => rw [hl] at h1; simp at h1
      | a :: b :: l => rw [hl] at h1; simp at h1
    refine ⟨q, occPositions_occursAt pat t q
      (by rw [hq]; exact List.mem_singleton.mpr rfl), ?_⟩
    unfold posReplace
    rw [hq]
    rfl

/-- C1 witness: the amended characterization applied at Scenario A with
occurrence 0 deactivated, and the single-occurrence clauses applied at a
concrete text. -/
theorem c1_witness :
    (applyInactiveOccurrences scenarioAText scenarioADets ({0} : Finset Nat) =
      exportReversalByIndex scenarioAText scenarioADets ({0} : Finset Nat)) ∧
    ((occPositions (str "[X]") (str "a[X]b")).length = 1 ∧ 0 < 2 ∧
      posReplace (str "a[X]b") (str "[X]") 2 (str "Z") = str "a[X]b") := by
  refine ⟨c1_export_reversal_amended.1 scenarioAText scenarioADets {0},
    by decide, by decide,
    c1_export_reversal_amended.2.1 (str "a[X]b") (str "[X]") (str "Z") 2
      (by decide) (by decide)⟩

/-!  ## Manual Tagging and Replace-All (`TextSelectionReplacer.tsx`) -/

/-- The static entity-type → placeholder-type table of
`getPlaceholderType` (`TextSelectionReplacer.tsx`). -/
def getPlaceholderType (entityType : List Char) : List Char :=
  if entityType = str "name" then str "NAME"
  else if entityType = str "email" then str "EMAIL"
  else if entityType = str "phone" then str "PHONE"
  else if entityType = str "address" then str "ADDRESS"
  else if entityType = str "ssn" then str "SSN"
  else if entityType = str "org" then str "ORG"
  else if entityType = str "birth-date" then str "BIRTH_DATE"
  else if entityType = str "id" then str "ID"
  else if entityType = str "proprietary" then str "PROPRIETARY"
  else if entityType = str "location" then str "LOCATION"
  else if entityType = str "product" then str "PRODUCT"
  else if entityType = str "service" then str "SERVICE"
  else if entityType = str "project" then str "PROJECT"
  else str "UNKNOWN"

/-- Decimal value of a digit run, as computed by `parseInt`. -/
def digitsToNat (ds : List Char) : Nat :=
  ds.foldl (fun n c => n * 10 + (c.toNat - '0'.toNat)) 0

/-- Parse a placeholder token of type `P` starting at position `p`:
`[P_<digits>]` with a nonempty digit run.  Because the digit run is
maximal (the next character must be the closing bracket) this is exactly
a match of the regex `\[P_(\d+)\]` anchored at `p`. -/
def parseTokenNumAt (text P : List Char) (p : Nat) : Option Nat :=
  let head := '[' :: (P ++ ['_'])
  if occursAt text head p then
    let ds := (text.drop (p + head.length)).takeWhile Char.isDigit
    if ds ≠ [] ∧ occursAt text [']'] (p + head.length + ds.length) then
      some (digitsToNat ds)
    else none
  else none

/-- The `existingNumbers` regex scan of `handleReplace`/`handleReplaceAll`:
every number carried by a `[P_<n>]` token occurring in the text.  The
global regex visits every literal token occurrence (matches of this
pattern cannot overlap, since `[` occurs in a match only at its head), so
collecting over all start positions is equivalent. -/
def collectPlaceholderNumbers (text P : List Char) : List Nat :=
  (List.range (text.length + 1)).filterMap (parseTokenNumAt text P)

/-- The `while (existingNumbers.has(placeholderNumber))` loop: the least
positive integer not in `used` (reached within `used.length + 1` steps). -/
def allocNumber (used : List Nat) : Nat :=
  ((((List.range (used.length + 1)).map (· + 1))).find?
    (fun n => ! used.contains n)).getD 1

/-- The `existingPlaceholder` detection lookup: the replacement of the
first detection with `original === S` whose replacement starts with
`[P_`. -/
def existingPlaceholderFor (detections : List Detection) (S P : List Char) :
    Option (List Char) :=
  (detections.find? (fun d =>
    decide (d.original = S) &&
    ('[' :: (P ++ ['_'])).isPrefixOf d.replacement)).map
    (·.replacement)

/-- The chosen placeholder string: reuse the existing one, else allocate
`[P_<n>]` with the smallest free number. -/
def chosenPlaceholder (text : List Char) (detections : List Detection)
    (S P : List Char) : List Char :=
  match existingPlaceholderFor detections S P with
  | some ph => ph
  | none =>
    '[' :: (P ++ '_' ::
      (Nat.toDigits 10 (allocNumber (collectPlaceholderNumbers text P)) ++ [']']))

/-- JavaScript `text.replace(S, rep)` with a plain-string pattern: replace
the first occurrence only. -/
def replaceFirst (t pat rep : List Char) : List Char :=
  match indexOfOpt t pat with
  | some q => t.take q ++ rep ++ t.drop (q + pat.length)
  | none => t

/-- The insertion-index loop shared by `handleReplace` and
`handleReplaceAll`: walk the array, setting `insertIndex = i + 1` for each
detection whose replacement's first occurrence exists and lies before
`position`, and `break` at the first that does not.  `position` is an
integer because `newText.indexOf(existingPlaceholder)` can be `-1`. -/
def insId (newText : List Char) (position : Int) : List Detection → Nat
  | [] => 0
  | d :: rest =>
    match indexOfOpt newText d.replacement with
    | some q => if (q : Int) < position then insId newText position rest + 1 else 0
    | none => 0

/-- The renumbering loop after a splice: every shifted detection with a
defined `i` gets `i := its new array index` (`start` is the index of the
first shifted element). -/
def renumberFrom (start : Nat) (l : List Detection) : List Detection :=
  l.enum.map (fun kd =>
    if kd.2.i.isSome then { kd.2 with i := some (start + kd.1) } else kd.2)

/-- `newDetections.splice(insertIndex, 0, d)` followed by the renumbering
loop over all later indices. -/
def insertDetectionAt (dets : List Detection) (n : Nat) (d : Detection) :
    List Detection :=
  dets.take n ++ d :: renumberFrom (n + 1) (dets.drop n)

/-- Result of a tagging operation: the updated text and detection array
passed to `onReplace`/`onReplaceAll`. -/
structure ReplaceOutcome where
  newText : List Char
  newDetections : List Detection
deriving DecidableEq

/-- `handleReplace` (`TextSelectionReplacer.tsx`): Manual Tagging of the
selected substring as the given entity type.  Replaces the first textual
occurrence of the selection with the chosen placeholder and, when no
detection already records the `(original, [P_ prefix)` pair, splices a new
confidence-1 detection at the computed insertion index and renumbers. -/
def handleReplace (anonymizedText : List Char) (detections : List Detection)
    (selectionText entityType : List Char) : ReplaceOutcome :=
  let placeholderType := getPlaceholderType entityType
  let existingPlaceholder :=
    chosenPlaceholder anonymizedText detections selectionText placeholderType
  let newText := replaceFirst anonymizedText selectionText existingPlaceholder
  let existingIndex := detections.findIdx? (fun d =>
    decide (d.original = selectionText) &&
    ('[' :: (placeholderType ++ ['_'])).isPrefixOf d.replacement)
  match existingIndex with
  | some _ => ⟨newText, detections⟩
  | none =>
    let position : Int :=
      (indexOfOpt newText existingPlaceholder).elim (-1) (fun q => (q : Int))
    let insertIndex := insId newText position detections
    ⟨newText, insertDetectionAt detections insertIndex
      { type := entityType, original := selectionText,
        replacement := existingPlaceholder, confidence := 1,
        explanation := some (str "Manually tagged as " ++ entityType),
        i := some insertIndex }⟩

/-- `handleReplaceAll` (`TextSelectionReplacer.tsx`): Replace-All tagging.
Globally case-insensitively replaces the selection by the chosen
placeholder, collects every position of the placeholder in the new text,
and for each position not flagged by the `exists` check splices a new
confidence-1 detection at the computed insertion index. -/
def handleReplaceAll (anonymizedText : List Char) (detections : List Detection)
    (selectionText entityType : List Char) : ReplaceOutcome :=
  let placeholderType := getPlaceholderType entityType
  let existingPlaceholder :=
    chosenPlaceholder anonymizedText detections selectionText placeholderType
  let newText := ciReplaceAll anonymizedText selectionText existingPlaceholder
  let replacementPositions := findAllFrom newText existingPlaceholder 0
  let newDetections := replacementPositions.foldl
    (fun dets position =>
      let alreadyThere := dets.any (fun d =>
        decide (d.original = selectionText) &&
        decide (d.replacement = existingPlaceholder) &&
        decide (indexOfOpt newText d.replacement = some position))
      if alreadyThere then dets
      else
        let insertIndex := insId newText (position : Int) dets
        insertDetectionAt dets insertIndex
          { type := entityType, original := selectionText,
            replacement := existingPlaceholder, confidence := 1,
            explanation := some (str "Manually tagged as " ++ entityType),
            i := some insertIndex })
    detections
  ⟨newText, newDetections⟩

/-- C2 failing input: a message in which `Acme Corp` was already
Replace-All-tagged at both of its occurrences. -/
def c2Text : List Char := str "x [ORG_1] y [ORG_1]"

/-- C2 failing input: both occurrences covered by detections. -/
def c2Dets : List Detection :=
  [{ type := str "org", original := str "Acme Corp",
     replacement := str "[ORG_1]", confidence := 1,
     explanation := none, i := some 0 },
   { type := str "org", original := str "Acme Corp",
     replacement := str "[ORG_1]", confidence := 1,
     explanation := none, i := some 1 }]

/-- C2: re-invoking Replace-All on the already fully tagged text of
`c2Text`/`c2Dets` leaves the text unchanged but grows the detection array
from 2 to 3 entries: the `exists` dedup check compares each collected
placeholder position against `newText.indexOf(d.replacement)`, which is
always the first occurrence, so the second occurrence is never recognized
as covered and a duplicate detection is spliced in. -/
theorem c2_replace_all_not_idempotent :
    (handleReplaceAll c2Text c2Dets (str "Acme Corp") (str "org")).newText
        = c2Text ∧
      c2Dets.length = 2 ∧
      (handleReplaceAll c2Text c2Dets (str "Acme Corp") (str "org")).newDetections.length
        = 3 := by
  refine ⟨by decide, by decide, by decide⟩

/-- C3 failing input: tagging the absent substring `xyz` in `hello`. -/
def c3Expected : ReplaceOutcome :=
  { newText := str "hello",
    newDetections :=
      [{ type := str "name", original := str "xyz",
         replacement := str "[NAME_1]", confidence := 1,
         explanation := some (str "Manually tagged as name"), i := some 0 }] }

/-- C3: Manual Tagging of a substring that does not occur in the text is
not a no-op: `handleReplace` has no not-found check, so the text is left
unchanged (the `replace` finds nothing) but a brand-new detection for the
absent substring is spliced in at index 0 and reported to the caller;
nothing reports "not found". -/
theorem c3_manual_tagging_not_found_mutates :
    ¬ substrOf (str "xyz") (str "hello") ∧
      handleReplace (str "hello") [] (str "xyz") (str "name") = c3Expected ∧
      c3Expected.newDetections ≠ [] := by
  refine ⟨by decide, by decide, by decide⟩

/-!  ## Occurrence Activation State (`ResultDisplay`, src/unnamed/part_002) -/

/-- Cross-multiplied form of the threshold comparison
`confidence * 100 < value`, used to give it a kernel-computable
`Decidable` instance. -/
theorem rat_mul100_lt_iff (c T : ℚ) :
    c * 100 < T ↔ c.num * 100 * (T.den : Int) < T.num * (c.den : Int) := by
  conv_lhs => rw [show c = (c.num : ℚ) / (c.den : ℚ) from (Rat.num_div_den c).symm,
    show T = (T.num : ℚ) / (T.den : ℚ) from (Rat.num_div_den T).symm]
  rw [div_mul_eq_mul_div, div_lt_div_iff (by positivity) (by positivity)]
  constructor <;> intro h <;> exact_mod_cast h

instance (priority := 10000) (c T : ℚ) : Decidable (c * 100 < T) :=
  decidable_of_iff _ (rat_mul100_lt_iff c T).symm

/-- `detection.i ?? idx`: the occurrence index of a detection at array
index `idx`. -/
def occurrenceIndexOf (idx : Nat) (d : Detection) : Nat := d.i.getD idx

/-- All occurrence indices of a detection array. -/
def occIndicesOf (detections : List Detection) : Finset Nat :=
  (detections.enum.map (fun kd => occurrenceIndexOf kd.1 kd.2)).toFinset

/-- `handleSliderChange` (`ResultDisplay`, src/unnamed/part_002): first
re-activate every occurrence currently in the inactive set (the guard
reads the pre-call snapshot), then, when the threshold is positive,
deactivate every detection with `confidence * 100 < value`. -/
def handleSliderChange (detections : List Detection) (value : ℚ)
    (inactiveOccurrences : Finset Nat) : Finset Nat :=
  let afterReset := detections.enum.foldl
    (fun s kd =>
      if occurrenceIndexOf kd.1 kd.2 ∈ inactiveOccurrences then
        s.erase (occurrenceIndexOf kd.1 kd.2)
      else s)
    inactiveOccurrences
  if 0 < value then
    detections.enum.foldl
      (fun s kd =>
        if kd.2.confidence * 100 < value then
          insert (occurrenceIndexOf kd.1 kd.2) s
        else s)
      afterReset
  else afterReset

/-- The set the specification prescribes: occurrence indices of exactly
the detections with `confidence * 100 < value`. -/
def belowThreshold (detections : List Detection) (value : ℚ) : Finset Nat :=
  ((detections.enum.filter (fun kd => decide (kd.2.confidence * 100 < value))).map
    (fun kd => occurrenceIndexOf kd.1 kd.2)).toFinset

theorem mem_foldl_eraseIf {β : Type} (key : β → Nat) (g : Finset Nat) :
    ∀ (l : List β) (init : Finset Nat) (x : Nat),
      (x ∈ l.foldl (fun s kd => if key kd ∈ g then s.erase (key kd) else s) init) ↔
        x ∈ init ∧ ¬(x ∈ g ∧ ∃ kd ∈ l, key kd = x) := by
  intro l
  induction l with
  | nil => simp
  | cons a l ih =>
    intro init x
    rw [List.foldl_cons, ih]
    by_cases hg : key a ∈ g
    · rw [if_pos hg]
      by_cases hx : key a = x
      · simp only [Finset.mem_erase]
        constructor
        · rintro ⟨⟨hne, _⟩, _⟩; exact absurd hx.symm hne
        · rintro ⟨_, hno⟩
          exact absurd ⟨hx ▸ hg, a, List.mem_cons_self a l, hx⟩ hno
      · simp only [Finset.mem_erase]
        constructor
        · rintro ⟨⟨_, hin⟩, hno⟩
          refine ⟨hin, ?_⟩
          rintro ⟨hxg, kd, hkd, hkey⟩
          rcases List.mem_cons.mp hkd with rfl | hkd'
          · exact hx hkey
          · exact hno ⟨hxg, kd, hkd', hkey⟩
        · rintro ⟨hin, hno⟩
          refine ⟨⟨fun he => hx he.symm, hin⟩, ?_⟩
          rintro ⟨hxg, kd, hkd, hkey⟩
          exact hno ⟨hxg, kd, List.mem_cons_of_mem a hkd, hkey⟩
    · rw [if_neg hg]
      constructor
      · rintro ⟨hin, hno⟩
        refine ⟨hin, ?_⟩
        rintro ⟨hxg, kd, hkd, hkey⟩
        rcases List.mem_cons.mp hkd with rfl | hkd'
        · exact hg (hkey ▸ hxg)
        · exact hno ⟨hxg, kd, hkd', hkey⟩
      · rintro ⟨hin, hno⟩
        refine ⟨hin, ?_⟩
        rintro ⟨hxg, kd, hkd, hkey⟩
        exact hno ⟨hxg, kd, List.mem_cons_of_mem a hkd, hkey⟩

theorem mem_foldl_insertIf {β : Type} (P : β → Prop) [DecidablePred P]
    (key : β → Nat) :
    ∀ (l : List β) (init : Finset Nat) (x : Nat),
      x ∈ l.foldl (fun s kd => if P kd then insert (key kd) s else s) init ↔
        x ∈ init ∨ ∃ kd ∈ l, P kd ∧ key kd = x := by
  intro l
  induction l with
  | nil => simp
  | cons a l ih =>
    intro init x
    rw [List.foldl_cons, ih]
    by_cases hP : P a
    · rw [if_pos hP]
      simp only [Finset.mem_insert]
      constructor
      · rintro ((rfl | hin) | ⟨kd, hkd, hPkd, hkey⟩)
        · exact Or.inr ⟨a, List.mem_cons_self a l, hP, rfl⟩
        · exact Or.inl hin
        · exact Or.inr ⟨kd, List.mem_cons_of_mem a hkd, hPkd, hkey⟩
      · rintro (hin | ⟨kd, hkd, hPkd, hkey⟩)
        · exact Or.inl (Or.inr hin)
        · rcases List.mem_cons.mp hkd with rfl | hkd'
          · exact Or.inl (Or.inl hkey.symm)
          · exact Or.inr ⟨kd, hkd', hPkd, hkey⟩
    · rw [if_neg hP]
      constructor
      · rintro (hin | ⟨kd, hkd, hPkd, hkey⟩)
        · exact Or.inl hin
        · exact Or.inr ⟨kd, List.mem_cons_of_mem a hkd, hPkd, hkey⟩
      · rintro (hin | ⟨kd, hkd, hPkd, hkey⟩)
        · exact Or.inl hin
        · rcases List.mem_cons.mp hkd with rfl | hkd'
          · exact absurd hPkd hP
          · exact Or.inr ⟨kd, hkd', hPkd, hkey⟩

theorem mem_occIndicesOf {detections : List Detection} {x : Nat} :
    x ∈ occIndicesOf detections ↔
      ∃ kd ∈ detections.enum, occurrenceIndexOf kd.1 kd.2 = x := by
  simp [occIndicesOf]

theorem mem_belowThreshold {detections : List Detection} {T : ℚ} {x : Nat} :
    x ∈ belowThreshold detections T ↔
      ∃ kd ∈ detections.enum,
        kd.2.confidence * 100 < T ∧ occurrenceIndexOf kd.1 kd.2 = x := by
  simp only [belowThreshold, List.mem_toFinset, List.mem_map, List.mem_filter,
    decide_eq_true_eq]
  constructor
  · rintro ⟨kd, ⟨hmem, hlt⟩, hkey⟩
    exact ⟨kd, hmem, hlt, hkey⟩
  · rintro ⟨kd, hmem, hlt, hkey⟩
    exact ⟨kd, ⟨hmem, hlt⟩, hkey⟩

theorem belowThreshold_subset_occIndices {detections : List Detection} {T : ℚ} :
    belowThreshold detections T ⊆ occIndicesOf detections := by
  intro x hx
  rcases mem_belowThreshold.mp hx with ⟨kd, hmem, _, hkey⟩
  exact mem_occIndicesOf.mpr ⟨kd, hmem, hkey⟩

/-- Membership characterization of `handleSliderChange`. -/
theorem mem_handleSliderChange {detections : List Detection} {T : ℚ}
    {S : Finset Nat} {x : Nat} :
    x ∈ handleSliderChange detections T S ↔
      (x ∈ S ∧ x ∉ occIndicesOf detections) ∨
        (0 < T ∧ x ∈ belowThreshold detections T) := by
  unfold handleSliderChange
  have hreset : ∀ y, (y ∈ detections.enum.foldl
      (fun s kd =>
        if occurrenceIndexOf kd.1 kd.2 ∈ S then
          s.erase (occurrenceIndexOf kd.1 kd.2)
        else s) S) ↔ y ∈ S ∧ y ∉ occIndicesOf detections := by
    intro y
    rw [mem_foldl_eraseIf (fun kd => occurrenceIndexOf kd.1 kd.2) S
      detections.enum S y]
    constructor
    · rintro ⟨hin, hno⟩
      refine ⟨hin, fun hocc => ?_⟩
      rcases mem_occIndicesOf.mp hocc with ⟨kd, hkd, hkey⟩
      exact hno ⟨hin, kd, hkd, hkey⟩
    · rintro ⟨hin, hnocc⟩
      refine ⟨hin, ?_⟩
      rintro ⟨_, kd, hkd, hkey⟩
      exact hnocc (mem_occIndicesOf.mpr ⟨kd, hkd, hkey⟩)
  by_cases hT : 0 < T
  · rw [if_pos hT]
    rw [mem_foldl_insertIf (fun kd => kd.2.confidence * 100 < T)
      (fun kd => occurrenceIndexOf kd.1 kd.2) detections.enum _ x]
    rw [hreset x, mem_belowThreshold]
    constructor
    · rintro (h | ⟨kd, hkd, hlt, hkey⟩)
      · exact Or.inl h
      · exact Or.inr ⟨hT, kd, hkd, hlt, hkey⟩
    · rintro (h | ⟨_, kd, hkd, hlt, hkey⟩)
      · exact Or.inl h
      · exact Or.inr ⟨kd, hkd, hlt, hkey⟩
  · rw [if_neg hT, hreset x]
    constructor
    · exact fun h => Or.inl h
    · rintro (h | ⟨hT', _⟩)
      · exact h
      · exact absurd hT' hT

/-- C5: applying the confidence threshold is a full reset-then-apply.
Provided the current inactive set only holds occurrence indices of the
message's detections (the reachable-state invariant) and confidences are
nonnegative, the resulting inactive set is exactly the set of occurrence
indices of detections with `confidence * 100 < T`; and for any two
thresholds, applying `T1` then `T2` equals applying `T2` alone — no stale
deactivations accumulate. -/
theorem c5_confidence_threshold_reset
    (detections : List Detection) (T : ℚ) (inactive : Finset Nat)
    (h1 : inactive ⊆ occIndicesOf detections)
    (h2 : ∀ d ∈ detections, 0 ≤ d.confidence) :
    handleSliderChange detections T inactive = belowThreshold detections T ∧
    ∀ (T1 T2 : ℚ) (S : Finset Nat),
      handleSliderChange detections T2 (handleSliderChange detections T1 S) =
        handleSliderChange detections T2 S := by
  constructor
  · ext x
    rw [mem_handleSliderChange]
    constructor
    · rintro (⟨hin, hnocc⟩ | ⟨_, hb⟩)
      · exact absurd (h1 hin) hnocc
      · exact hb
    · intro hb
      rcases mem_belowThreshold.mp hb with ⟨kd, hkd, hlt, hkey⟩
      by_cases hT : 0 < T
      · exact Or.inr ⟨hT, hb⟩
      · exfalso
        have hc := h2 kd.2 (by
          have h3 := List.mem_enum_iff_getElem?.mp hkd
          exact List.getElem?_mem h3)
        have : (0 : ℚ) ≤ kd.2.confidence * 100 :=
          mul_nonneg hc (by norm_num)
        have hTle : T ≤ 0 := le_of_not_lt hT
        exact absurd hlt (by linarith)
  · intro T1 T2 S
    ext x
    rw [mem_handleSliderChange, mem_handleSliderChange, mem_handleSliderChange]
    constructor
    · rintro (⟨hX, hnocc⟩ | h)
      · rcases hX with ⟨hS, _⟩ | ⟨_, hb⟩
        · exact Or.inl ⟨hS, hnocc⟩
        · exact absurd (belowThreshold_subset_occIndices hb) hnocc
      · exact Or.inr h
    · rintro (⟨hS, hnocc⟩ | h)
      · exact Or.inl ⟨Or.inl ⟨hS, hnocc⟩, hnocc⟩
      · exact Or.inr h

/-- C5 witness input: one zero-confidence and one full-confidence
detection. -/
def scenarioC5Dets : List Detection :=
  [{ type := str "name", original := str "Bob",
     replacement := str "[NAME_1]", confidence := 0,
     explanation := none, i := some 0 },
   { type := str "email", original := str "e@x",
     replacement := str "[EMAIL_1]", confidence := 1,
     explanation := none, i := some 1 }]

/-- C5 witness: the threshold applied at a concrete message with one
mid-confidence detection, starting from a manually deactivated state. -/
theorem c5_witness :
    ({0} : Finset Nat) ⊆ occIndicesOf scenarioC5Dets ∧
    (∀ d ∈ scenarioC5Dets, 0 ≤ d.confidence) ∧
    handleSliderChange scenarioC5Dets 50 {0} = belowThreshold scenarioC5Dets 50 := by
  refine ⟨by decide, by decide,
    (c5_confidence_threshold_reset scenarioC5Dets 50 {0} (by decide) (by decide)).1⟩

/-!  ## C10: manually created detections carry confidence 1 -/

theorem confidence_renumberFrom {start : Nat} {l : List Detection}
    {d : Detection} (h : d ∈ renumberFrom start l) :
    ∃ d0 ∈ l, d.confidence = d0.confidence := by
  unfold renumberFrom at h
  rcases List.mem_map.mp h with ⟨kd, hkd, rfl⟩
  have hmem : kd.2 ∈ l := List.getElem?_mem (List.mem_enum_iff_getElem?.mp hkd)
  by_cases hi : kd.2.i.isSome
  · exact ⟨kd.2, hmem, by rw [if_pos hi]⟩
  · exact ⟨kd.2, hmem, by rw [if_neg hi]⟩

theorem confidence_insertDetectionAt {dets : List Detection} {n : Nat}
    {nd d : Detection} (h : d ∈ insertDetectionAt dets n nd) :
    d.confidence = nd.confidence ∨ ∃ d0 ∈ dets, d.confidence = d0.confidence := by
  unfold insertDetectionAt at h
  rcases List.mem_append.mp h with htake | hrest
  · exact Or.inr ⟨d, List.mem_of_mem_take htake, rfl⟩
  · rcases List.mem_cons.mp hrest with rfl | hren
    · exact Or.inl rfl
    · rcases confidence_renumberFrom hren with ⟨d0, hd0, hc⟩
      exact Or.inr ⟨d0, List.mem_of_mem_drop hd0, hc⟩

theorem confidence_handleReplace {text S ty : List Char}
    {detections : List Detection} {d : Detection}
    (h : d ∈ (handleReplace text detections S ty).newDetections) :
    d.confidence = 1 ∨ ∃ d0 ∈ detections, d.confidence = d0.confidence := by
  unfold handleReplace at h
  dsimp only at h
  split at h
  · exact Or.inr ⟨d, h, rfl⟩
  · rcases confidence_insertDetectionAt h with hc | ⟨d0, hd0, hc⟩
    · exact Or.inl hc
    · exact Or.inr ⟨d0, hd0, hc⟩

/-- The Replace-All fold preserves the property that every detection is
either confidence-1 or inherits its confidence from the base array. -/
theorem confidence_foldl_tagging (nt S ph ty : List Char)
    (base : List Detection) :
    ∀ (positions : List Nat) (dets : List Detection),
      (∀ x ∈ dets, x.confidence = 1 ∨ ∃ d0 ∈ base, x.confidence = d0.confidence) →
      ∀ d ∈ positions.foldl
          (fun dets position =>
            let alreadyThere := dets.any (fun d =>
              decide (d.original = S) && decide (d.replacement = ph) &&
              decide (indexOfOpt nt d.replacement = some position))
            if alreadyThere then dets
            else
              let insertIndex := insId nt (position : Int) dets
              insertDetectionAt dets insertIndex
                { type := ty, original := S, replacement := ph,
                  confidence := 1,
                  explanation := some (str "Manually tagged as " ++ ty),
                  i := some insertIndex }) dets,
        d.confidence = 1 ∨ ∃ d0 ∈ base, d.confidence = d0.confidence := by
  intro positions
  induction positions with
  | nil => intro dets hQ d hd; exact hQ d hd
  | cons p ps ih =>
    intro dets hQ d hd
    rw [List.foldl_cons] at hd
    refine ih _ ?_ d hd
    intro x hx
    dsimp only at hx
    split at hx
    · exact hQ x hx
    · rcases confidence_insertDetectionAt hx with hc | ⟨d0, hd0, hc⟩
      · exact Or.inl hc
      · rcases hQ d0 hd0 with h1 | ⟨d1, hd1, h1⟩
        · exact Or.inl (hc.trans h1)
        · exact Or.inr ⟨d1, hd1, hc.trans h1⟩

theorem confidence_handleReplaceAll {text S ty : List Char}
    {detections : List Detection} {d : Detection}
    (h : d ∈ (handleReplaceAll text detections S ty).newDetections) :
    d.confidence = 1 ∨ ∃ d0 ∈ detections, d.confidence = d0.confidence := by
  unfold handleReplaceAll at h
  exact confidence_foldl_tagging
    (ciReplaceAll text S (chosenPlaceholder text detections S (getPlaceholderType ty)))
    S (chosenPlaceholder text detections S (getPlaceholderType ty)) ty detections
    (findAllFrom
      (ciReplaceAll text S (chosenPlaceholder text detections S (getPlaceholderType ty)))
      (chosenPlaceholder text detections S (getPlaceholderType ty)) 0)
    detections (fun x hx => Or.inr ⟨x, hx, rfl⟩) d h

/-- C10 (implicit): every detection spliced in by Manual Tagging or
Replace-All carries confidence exactly 1 (any member of the resulting
array is either confidence-1 or inherits its confidence from a
pre-existing detection, since renumbering only rewrites `i`); and under
the index invariant (distinct occurrence indices) the confidence slider
at any threshold `T ≤ 100` never deactivates a confidence-1 detection,
because `1 * 100 < T` is impossible. -/
theorem c10_manual_confidence_invariant
    (text S ty : List Char) (detections : List Detection) (d : Detection)
    (T : ℚ) (inactive : Finset Nat) (kd : Nat × Detection) :
    (d ∈ (handleReplace text detections S ty).newDetections →
      d.confidence = 1 ∨ ∃ d0 ∈ detections, d.confidence = d0.confidence) ∧
    (d ∈ (handleReplaceAll text detections S ty).newDetections →
      d.confidence = 1 ∨ ∃ d0 ∈ detections, d.confidence = d0.confidence) ∧
    (kd ∈ detections.enum → kd.2.confidence = 1 → 0 ≤ T → T ≤ 100 →
      (detections.enum.map (fun p => occurrenceIndexOf p.1 p.2)).Nodup →
      occurrenceIndexOf kd.1 kd.2 ∉ handleSliderChange detections T inactive) := by
  refine ⟨fun h => confidence_handleReplace h,
    fun h => confidence_handleReplaceAll h, ?_⟩
  intro hkd hconf _ hT hnd hmem
  rcases mem_handleSliderChange.mp hmem with ⟨_, hnocc⟩ | ⟨_, hb⟩
  · exact hnocc (mem_occIndicesOf.mpr ⟨kd, hkd, rfl⟩)
  · rcases mem_belowThreshold.mp hb with ⟨kd1, hkd1, hlt, hkey⟩
    have heq : kd1 = kd :=
      List.inj_on_of_nodup_map hnd hkd1 hkd (by rw [hkey])
    rw [heq, hconf] at hlt
    have : (1 : ℚ) * 100 = 100 := by norm_num
    rw [this] at hlt
    exact absurd hlt (not_lt.mpr hT)

/-- C10 witness input: the detection that Manual Tagging of `Bob` as
`name` in `hello Bob` splices in. -/
def c10NewDet : Detection :=
  { type := str "name", original := str "Bob",
    replacement := str "[NAME_1]", confidence := 1,
    explanation := some (str "Manually tagged as name"), i := some 0 }

/-- C10 witness input: a single confidence-1 detection with occurrence
index 3. -/
def c10SliderDet : Detection :=
  { type := str "name", original := str "Bob",
    replacement := str "[NAME_1]", confidence := 1,
    explanation := none, i := some 3 }

/-- C10 witness: concrete Manual-Tagging and Replace-All runs produce the
confidence-1 detection, and the slider at threshold 100 leaves its
occurrence index active. -/
theorem c10_witness :
    (c10NewDet ∈ (handleReplace (str "hello Bob") [] (str "Bob")
        (str "name")).newDetections ∧
      (c10NewDet.confidence = 1 ∨
        ∃ d0 ∈ ([] : List Detection), c10NewDet.confidence = d0.confidence)) ∧
    (c10NewDet ∈ (handleReplaceAll (str "hello Bob") [] (str "Bob")
        (str "name")).newDetections ∧
      (c10NewDet.confidence = 1 ∨
        ∃ d0 ∈ ([] : List Detection), c10NewDet.confidence = d0.confidence)) ∧
    ((0, c10SliderDet) ∈ [c10SliderDet].enum ∧
      c10SliderDet.confidence = 1 ∧ (0 : ℚ) ≤ 100 ∧ (100 : ℚ) ≤ 100 ∧
      ([c10SliderDet].enum.map (fun p => occurrenceIndexOf p.1 p.2)).Nodup ∧
      occurrenceIndexOf 0 c10SliderDet ∉
        handleSliderChange [c10SliderDet] 100 {5}) := by
  refine ⟨⟨by decide,
      (c10_manual_confidence_invariant (str "hello Bob") (str "Bob") (str "name")
        [] c10NewDet 100 {5} (0, c10SliderDet)).1 (by decide)⟩,
    ⟨by decide,
      (c10_manual_confidence_invariant (str "hello Bob") (str "Bob") (str "name")
        [] c10NewDet 100 {5} (0, c10SliderDet)).2.1 (by decide)⟩,
    by decide, by decide, by norm_num, by norm_num, by decide,
    (c10_manual_confidence_invariant (str "hello Bob") (str "Bob") (str "name")
      [c10SliderDet] c10NewDet 100 {5} (0, c10SliderDet)).2.2
      (by decide) (by decide) (by norm_num) (by norm_num) (by decide)⟩

/-!  ## C4: `handleToggleEntity` (`ChatInterface`, src/unnamed/part_001)

The component declares exactly two activation-state setters,
`setInactiveOccurrences` and `setInactiveEntities` (part_001:528-529).
The body of `handleToggleEntity` (part_001:871-922) first calls
`setInactiveReplacements` (part_001:882), an identifier declared nowhere
in the module, so in the shipped JavaScript the call throws a
`ReferenceError` before any state update runs; the entity-level
`setInactiveEntities` update after it is never reached.  Name resolution
is modelled as membership in the list of declared setter names. -/

/-- The activation state handled by the toggles: the per-message
inactive-occurrence set and inactive-entity set. -/
structure ToggleState where
  inactiveOccurrences : Finset Nat
  inactiveEntities : Finset (List Char)
deriving DecidableEq

/-- The state setters the component declares (part_001:528-529). -/
def declaredSetters : List (List Char) :=
  [str "setInactiveOccurrences", str "setInactiveEntities"]

/-- Outcome of a toggle handler: a new state, or an uncaught
`ReferenceError` naming the undefined identifier. -/
inductive ToggleResult where
  | ok (s : ToggleState)
  | referenceError (name : List Char)
deriving DecidableEq

/-- `handleToggleEntity(messageIndex, originalText, makeActive)`: early
return when the message has no detections; otherwise collect the
replacements of the matching detections and call
`setInactiveReplacements`, which is not a declared setter. -/
def handleToggleEntity (detections : List Detection)
    (originalText : List Char) (makeActive : Bool) (s : ToggleState) :
    ToggleResult :=
  if detections = [] then .ok s
  else
    let _replacements :=
      (detections.filter (fun d => decide (d.original = originalText))).map
        (fun d => d.replacement)
    if str "setInactiveReplacements" ∈ declaredSetters then
      .ok { s with inactiveEntities :=
        if makeActive then s.inactiveEntities.erase originalText
        else insert originalText s.inactiveEntities }
    else .referenceError (str "setInactiveReplacements")

/-- C4: `toggleEntity(original, active:=false)` never deactivates
anything.  On every message that has detections the handler throws a
`ReferenceError` for the undeclared `setInactiveReplacements` before any
state update, so it cannot complete without error and the
inactive-occurrence set is never extended (nothing in the handler even
targets `inactiveOccurrences`). -/
theorem c4_toggle_entity_reference_error
    (detections : List Detection) (originalText : List Char)
    (makeActive : Bool) (s : ToggleState) (h : detections ≠ []) :
    handleToggleEntity detections originalText makeActive s
        = ToggleResult.referenceError (str "setInactiveReplacements") ∧
      ∀ s1, handleToggleEntity detections originalText makeActive s
        ≠ ToggleResult.ok s1 := by
  have hmain : handleToggleEntity detections originalText makeActive s
      = ToggleResult.referenceError (str "setInactiveReplacements") := by
    unfold handleToggleEntity
    rw [if_neg h, if_neg (by decide)]
  exact ⟨hmain, fun s1 h1 => by rw [hmain] at h1; exact ToggleResult.noConfusion h1⟩

/-- C4 witness input: one name detection. -/
def c4Det : Detection :=
  { type := str "name", original := str "John Smith",
    replacement := str "[NAME_1]", confidence := 1,
    explanation := none, i := some 0 }

/-- C4 witness: toggling the entity `John Smith` off on a message with one
matching detection raises the `ReferenceError` instead of deactivating. -/
theorem c4_witness :
    ([c4Det] ≠ ([] : List Detection)) ∧
      handleToggleEntity [c4Det] (str "John Smith") false ⟨∅, ∅⟩
        = ToggleResult.referenceError (str "setInactiveReplacements") := by
  refine ⟨by decide,
    (c4_toggle_entity_reference_error [c4Det] (str "John Smith") false ⟨∅, ∅⟩
      (by decide)).1⟩

/-!  ## C6/C7: the Position Resolver (`InteractiveAnonymizedText.tsx`)

`positionToDetection` scans the rendered text with the placeholder
grammar `\\[([A-Z_0-9]+)\\]`, counting, per placeholder string, how often
it has been seen, and binds the k-th occurrence of `P` to
`detections.filter(d => d.replacement === P)[k]` when that element
exists.  `processedContent` walks the same scan and renders each token
through `positionToDetection.get(pos) || replacementMap.get(P)` where
`replacementMap` stores the first detection per placeholder. -/

/-- A character of the placeholder body class `[A-Z_0-9]`. -/
def tokenBodyChar (c : Char) : Bool :=
  (decide ('A' ≤ c) && decide (c ≤ 'Z')) || decide (c = '_') ||
    (decide ('0' ≤ c) && decide (c ≤ '9'))

/-- Length of the maximal leading run of placeholder-body characters. -/
def runLen : List Char → Nat
  | [] => 0
  | c :: r => if tokenBodyChar c then runLen r + 1 else 0

/-- The placeholder token starting at position `p`, if any: `[`, a
nonempty body-class run, `]`.  The body class excludes both brackets, so
regex backtracking can only succeed on the maximal run. -/
def tokenAt (t : List Char) (p : Nat) : Option (List Char) :=
  match t.drop p with
  | [] => none
  | c :: r =>
    if c = '[' ∧ 1 ≤ runLen r ∧ r[runLen r]? = some ']' then
      some ('[' :: (r.take (runLen r) ++ [']']))
    else none

theorem tokenAt_pos {t : List Char} {p : Nat} {tok : List Char}
    (h : tokenAt t p = some tok) : 0 < tok.length := by
  unfold tokenAt at h
  split at h
  · exact absurd h (by simp)
  · split at h
    · cases Option.some.inj h
      simp
    · exact absurd h (by simp)

/-- The `placeholderRegex.exec` loop: at each start position emit the
token there and jump past it, or advance one position. -/
def tokenScanF : Nat → List Char → Nat → List (Nat × List Char)
  | 0, _, _ => []
  | n + 1, t, start =>
    if start < t.length then
      match tokenAt t start with
      | some tok => (start, tok) :: tokenScanF n t (start + tok.length)
      | none => tokenScanF n t (start + 1)
    else []

/-- All placeholder-token occurrences of the text, left to right. -/
def tokenScan (t : List Char) : List (Nat × List Char) :=
  tokenScanF (t.length + 1) t 0

theorem tokenScanF_ge : ∀ (n : Nat) (t : List Char) (start : Nat),
    ∀ pt ∈ tokenScanF n t start, start ≤ pt.1 := by
  intro n
  induction n with
  | zero => intro t start pt h; simp [tokenScanF] at h
  | succ n ih =>
    intro t start pt h
    rw [tokenScanF] at h
    by_cases hs : start < t.length
    · rw [if_pos hs] at h
      cases htok : tokenAt t start with
      | some tok =>
        rw [htok] at h
        rcases List.mem_cons.mp h with rfl | h1
        · exact Nat.le_refl _
        · exact Nat.le_trans (Nat.le_add_right _ _) (ih t _ pt h1)
      | none =>
        rw [htok] at h
        exact Nat.le_trans (Nat.le_succ _) (ih t _ pt h)
    · rw [if_neg hs] at h
      simp at h

theorem tokenScanF_pairwise : ∀ (n : Nat) (t : List Char) (start : Nat),
    (tokenScanF n t start).Pairwise (fun a b => a.1 < b.1) := by
  intro n
  induction n with
  | zero => intro t start; simp [tokenScanF]
  | succ n ih =>
    intro t start
    rw [tokenScanF]
    by_cases hs : start < t.length
    · rw [if_pos hs]
      cases htok : tokenAt t start with
      | some tok =>
        refine List.Pairwise.cons ?_ (ih t _)
        intro b hb
        have h1 := tokenScanF_ge n t (start + tok.length) b hb
        have h2 : 0 < tok.length := tokenAt_pos htok
        show start < b.1
        omega
      | none => exact ih t _
    · rw [if_neg hs]
      exact List.Pairwise.nil

theorem tokenScan_pairwise (t : List Char) :
    (tokenScan t).Pairwise (fun a b => a.1 < b.1) :=
  tokenScanF_pairwise _ t 0

/-- Number of occurrences of `tok` among the already-seen tokens (the
`placeholderCounts` map). -/
def countIn (seen : List (List Char)) (tok : List Char) : Nat :=
  (seen.filter (fun s => decide (s = tok))).length

/-- Replay of the `positionToDetection` construction loop: each token
occurrence is associated with
`detections.filter(d => d.replacement === tok)[count]`. -/
def posBindingsAux (dets : List Detection) :
    List (Nat × List Char) → List (List Char) → List (Nat × Option Detection)
  | [], _ => []
  | (p, tok) :: rest, seen =>
    (p, (dets.filter (fun d => decide (d.replacement = tok)))[countIn seen tok]?)
      :: posBindingsAux dets rest (tok :: seen)

/-- `positionToDetection.get(pos)`: the map entry of the token occurrence
at `pos` (the map is keyed by the pairwise-distinct scan positions). -/
def positionToDetection (text : List Char) (dets : List Detection)
    (pos : Nat) : Option Detection :=
  (((posBindingsAux dets (tokenScan text) []).filter
      (fun pb => decide (pb.1 = pos))).head?).bind (fun pb => pb.2)

/-- `replacementMap.get(tok)`: the first detection whose replacement is
`tok` (the backwards-compatibility map). -/
def replacementMapGet (dets : List Detection) (tok : List Char) :
    Option Detection :=
  dets.find? (fun d => decide (d.replacement = tok))

/-- `positionToDetection.get(matchStart) || replacementMap.get(placeholder)`. -/
def renderBinding (text : List Char) (dets : List Detection) (pos : Nat)
    (tok : List Char) : Option Detection :=
  match positionToDetection text dets pos with
  | some d => some d
  | none => replacementMapGet dets tok

theorem posBindingsAux_lookup (dets : List Detection) (P : List Char) :
    ∀ (toks : List (Nat × List Char)) (seen : List (List Char)) (k p : Nat),
      toks.Pairwise (fun a b => a.1 < b.1) →
      (toks.filter (fun pt => decide (pt.2 = P)))[k]? = some (p, P) →
      ((posBindingsAux dets toks seen).filter
          (fun pb => decide (pb.1 = p))).head?
        = some (p, (dets.filter
            (fun d => decide (d.replacement = P)))[countIn seen P + k]?) := by
  intro toks
  induction toks with
  | nil => intro seen k p _ hk; simp at hk
  | cons a rest ih =>
    obtain ⟨q, tok⟩ := a
    intro seen k p hpw hk
    rw [List.pairwise_cons] at hpw
    obtain ⟨hlt, hpw1⟩ := hpw
    by_cases htok : tok = P
    · subst htok
      rw [List.filter_cons_of_pos (by simp)] at hk
      cases k with
      | zero =>
        rw [List.getElem?_cons_zero] at hk
        have hqp : q = p := congrArg Prod.fst (Option.some.inj hk)
        subst hqp
        rw [posBindingsAux, List.filter_cons_of_pos (by simp),
          List.head?_cons, Nat.add_zero]
      | succ k1 =>
        rw [List.getElem?_cons_succ] at hk
        have hmem : (p, tok) ∈ rest :=
          List.mem_filter.mp (List.getElem?_mem hk) |>.1
        have hqp : q < p := hlt (p, tok) hmem
        rw [posBindingsAux, List.filter_cons_of_neg
          (by simp; omega)]
        rw [ih (tok :: seen) k1 p hpw1 hk]
        have hcnt : countIn (tok :: seen) tok + k1
            = countIn seen tok + (k1 + 1) := by
          simp [countIn]
          omega
        rw [hcnt]
    · rw [List.filter_cons_of_neg (by simp [htok])] at hk
      have hmem : (p, P) ∈ rest :=
        List.mem_filter.mp (List.getElem?_mem hk) |>.1
      have hqp : q < p := hlt (p, P) hmem
      rw [posBindingsAux, List.filter_cons_of_neg (by simp; omega)]
      rw [ih (tok :: seen) k p hpw1 hk]
      have hcnt : countIn (tok :: seen) P = countIn seen P := by
        simp [countIn, htok]
      rw [hcnt]

/-- The Position Resolver equation: the `k`-th scanned occurrence of
placeholder `P` is bound to the `k`-th detection (array order) whose
replacement is `P`. -/
theorem positionToDetection_eq (text : List Char) (dets : List Detection)
    (P : List Char) (k p : Nat)
    (h : ((tokenScan text).filter (fun pt => decide (pt.2 = P)))[k]?
      = some (p, P)) :
    positionToDetection text dets p
      = (dets.filter (fun d => decide (d.replacement = P)))[k]? := by
  unfold positionToDetection
  rw [posBindingsAux_lookup dets P (tokenScan text) [] k p
    (tokenScan_pairwise text) h]
  show (dets.filter (fun d => decide (d.replacement = P)))[countIn [] P + k]?
    = _
  rw [show countIn [] P + k = k by simp [countIn]]

/-- C6: for every text and detection array, the `k`-th (0-based) scanned
occurrence of placeholder string `P` is bound to the `k`-th detection in
array order whose `replacement` equals `P` — the binding is
`detections.filter(d => d.replacement === P)[k]`, which does not consult
the detections' `i` fields. -/
theorem c6_position_resolver_binding (text : List Char)
    (dets : List Detection) (P : List Char) (k p : Nat)
    (h : ((tokenScan text).filter (fun pt => decide (pt.2 = P)))[k]?
      = some (p, P)) :
    positionToDetection text dets p
      = (dets.filter (fun d => decide (d.replacement = P)))[k]? :=
  positionToDetection_eq text dets P k p h

/-- C6 witness input: first detection for `[X_1]` carries `i = 5`, the
second `i = 0`. -/
def c6DetA : Detection :=
  { type := str "name", original := str "Alice",
    replacement := str "[X_1]", confidence := 1,
    explanation := none, i := some 5 }

/-- C6 witness input: second `[X_1]` detection, with `i = 0`. -/
def c6DetB : Detection :=
  { type := str "name", original := str "Bob",
    replacement := str "[X_1]", confidence := 1,
    explanation := none, i := some 0 }

/-- C6 witness: in `a [X_1] b [X_1]` the second `[X_1]` occurrence (at
position 10) is bound to the second array detection `c6DetB` even though
its `i` is 0 — array order, not `i`, decides the binding. -/
theorem c6_witness :
    ((tokenScan (str "a [X_1] b [X_1]")).filter
        (fun pt => decide (pt.2 = str "[X_1]")))[1]?
      = some (10, str "[X_1]") ∧
    positionToDetection (str "a [X_1] b [X_1]") [c6DetA, c6DetB] 10
      = ([c6DetA, c6DetB].filter
          (fun d => decide (d.replacement = str "[X_1]")))[1]? ∧
    ([c6DetA, c6DetB].filter
        (fun d => decide (d.replacement = str "[X_1]")))[1]? = some c6DetB := by
  refine ⟨by decide,
    c6_position_resolver_binding (str "a [X_1] b [X_1]") [c6DetA, c6DetB]
      (str "[X_1]") 1 10 (by decide), by decide⟩

/-- One rendered piece of `processedContent`. -/
inductive Span where
  | lit (s : List Char)
  | shownOriginal (d : Detection)
  | label (placeholder : List Char) (d : Option Detection)
deriving DecidableEq

/-- The `processedContent` loop over the scanned tokens: plain text
between tokens, then for each token either the detection's original (when
that occurrence is inactive and a detection is bound) or an interactive
label carrying the (possibly absent) bound detection. -/
def spansFromToks (text : List Char) (dets : List Detection)
    (inacO : Finset Nat) (inacR : Finset (List Char)) :
    List (Nat × List Char) → Nat → List Span
  | [], lastIndex =>
    if lastIndex < text.length then [Span.lit (text.drop lastIndex)] else []
  | (p, tok) :: rest, lastIndex =>
    let pre : List Span :=
      if lastIndex < p then
        [Span.lit ((text.drop lastIndex).take (p - lastIndex))]
      else []
    let detection := renderBinding text dets p tok
    let isInactive : Bool :=
      match detection.bind (fun d => d.i) with
      | some di => decide (di ∈ inacO)
      | none => decide (tok ∈ inacR)
    let cur : Span :=
      match detection, isInactive with
      | some d, true => Span.shownOriginal d
      | _, _ => Span.label tok detection
    pre ++ cur :: spansFromToks text dets inacO inacR rest (p + tok.length)

/-- `processedContent`. -/
def processedSpans (text : List Char) (dets : List Detection)
    (inacO : Finset Nat) (inacR : Finset (List Char)) : List Span :=
  spansFromToks text dets inacO inacR (tokenScan text) 0

/-- C7 counterexample input: a single detection for a placeholder that
occurs twice. -/
def c7Det : Detection :=
  { type := str "name", original := str "John",
    replacement := str "[NAME_1]", confidence := 1,
    explanation := none, i := some 0 }

/-- C7 counterexample: in `[NAME_1] x [NAME_1]` with a single `[NAME_1]`
detection, the excess second occurrence is NOT inert literal text: the
resolver map misses (the filter has no element 1) but the
`replacementMap` fallback binds it to the first detection `c7Det`, and it
renders as a full interactive label bound to `c7Det`. -/
theorem c7_counterexample :
    ([c7Det].filter
        (fun d => decide (d.replacement = str "[NAME_1]"))).length = 1 ∧
    ((tokenScan (str "[NAME_1] x [NAME_1]")).filter
        (fun pt => decide (pt.2 = str "[NAME_1]"))).length = 2 ∧
    positionToDetection (str "[NAME_1] x [NAME_1]") [c7Det] 11 = none ∧
    renderBinding (str "[NAME_1] x [NAME_1]") [c7Det] 11 (str "[NAME_1]")
      = some c7Det ∧
    processedSpans (str "[NAME_1] x [NAME_1]") [c7Det] ∅ ∅
      = [Span.label (str "[NAME_1]") (some c7Det), Span.lit (str " x "),
         Span.label (str "[NAME_1]") (some c7Det)] := by
  refine ⟨by decide, by decide, by decide, by decide, by decide⟩

/-- C7 (amended): an excess occurrence of `P` (its scan ordinal `k` is at
least the number of detections with replacement `P`) misses the resolver
map, and the rendered binding falls back to the FIRST detection whose
replacement is `P` (the `replacementMap` backwards-compatibility path);
it is inert only when no detection at all has replacement `P`. -/
theorem c7_excess_occurrence_fallback (text : List Char)
    (dets : List Detection) (P : List Char) (k p : Nat)
    (h : ((tokenScan text).filter (fun pt => decide (pt.2 = P)))[k]?
      = some (p, P))
    (hk : (dets.filter (fun d => decide (d.replacement = P))).length ≤ k) :
    positionToDetection text dets p = none ∧
    renderBinding text dets p P
      = dets.find? (fun d => decide (d.replacement = P)) := by
  have h1 := positionToDetection_eq text dets P k p h
  rw [List.getElem?_eq_none hk] at h1
  refine ⟨h1, ?_⟩
  unfold renderBinding
  rw [h1]
  rfl

/-- C7 witness: the amended fallback applied at the counterexample
scenario: the second `[NAME_1]` occurrence is ordinal 1 ≥ 1 detection, so
it is bound to the first (and only) `[NAME_1]` detection. -/
theorem c7_witness :
    ((tokenScan (str "[NAME_1] x [NAME_1]")).filter
        (fun pt => decide (pt.2 = str "[NAME_1]")))[1]?
      = some (11, str "[NAME_1]") ∧
    ([c7Det].filter
        (fun d => decide (d.replacement = str "[NAME_1]"))).length ≤ 1 ∧
    positionToDetection (str "[NAME_1] x [NAME_1]") [c7Det] 11 = none ∧
    renderBinding (str "[NAME_1] x [NAME_1]") [c7Det] 11 (str "[NAME_1]")
      = [c7Det].find? (fun d => decide (d.replacement = str "[NAME_1]")) := by
  have h := c7_excess_occurrence_fallback (str "[NAME_1] x [NAME_1]") [c7Det]
    (str "[NAME_1]") 1 11 (by decide) (by decide)
  exact ⟨by decide, by decide, h.1, h.2⟩

/-!  ## C9: the streaming reconstructor (`handleSubmit` complete branch,
src/unnamed/part_001) -/

/-- JavaScript string falsiness of an optional string: `undefined` or
empty. -/
def strFalsy (o : Option (List Char)) : Bool := decide (o.getD [] = [])

/-- The fallback construction: sort the detections by `original.length`
descending (stable), then for each detection with truthy `original` and
`replacement` case-insensitively global-replace `original` by
`replacement` in the accumulated streaming content. -/
def streamFallbackContent (streamingContent : List Char)
    (dets : List Detection) : List Char :=
  (sortDescBy (fun d => d.original.length) dets).foldl
    (fun acc d =>
      if d.original ≠ [] ∧ d.replacement ≠ [] then
        ciReplaceAll acc d.original d.replacement
      else acc)
    streamingContent

/-- The `complete`-chunk handling: take `chunk.anonymized_text`; when it
is falsy and `chunk.reasoning.detected_pii` is a nonempty list, replace
it by the fallback construction; then the stored content is
`finalContent || streamingContent || ''`. -/
def completeDisplayedContent (anonymizedText : Option (List Char))
    (detectedPii : Option (List Detection)) (streamingContent : List Char) :
    List Char :=
  let finalContent : Option (List Char) :=
    if strFalsy anonymizedText && decide (0 < (detectedPii.getD []).length) then
      some (streamFallbackContent streamingContent (detectedPii.getD []))
    else anonymizedText
  match finalContent with
  | some c => if c = [] then streamingContent else c
  | none => streamingContent

/-- The reconstruction procedure in the specification\x27s words: sort by
`original.length` descending, then case-insensitively replace every
literal occurrence of each `original` with its `replacement`, in that
order, with no guards. -/
def streamReconstructSpec (streamingContent : List Char)
    (dets : List Detection) : List Char :=
  (sortDescBy (fun d => d.original.length) dets).foldl
    (fun acc d => ciReplaceAll acc d.original d.replacement)
    streamingContent

theorem mem_insDesc {α : Type} (rank : α → Nat) (x y : α) :
    ∀ l : List α, y ∈ insDesc rank x l ↔ y = x ∨ y ∈ l := by
  intro l
  induction l with
  | nil => simp [insDesc]
  | cons a as ih =>
    rw [insDesc]
    split
    · simp only [List.mem_cons]
    · simp only [List.mem_cons, ih]
      tauto

theorem mem_sortDescBy {α : Type} (rank : α → Nat) (l : List α) (y : α) :
    y ∈ sortDescBy rank l ↔ y ∈ l := by
  unfold sortDescBy
  suffices main : ∀ (l acc : List α),
      (y ∈ l.foldl (fun acc x => insDesc rank x acc) acc ↔ y ∈ acc ∨ y ∈ l) by
    rw [main l []]
    simp
  intro l
  induction l with
  | nil => intro acc; simp
  | cons a as ih =>
    intro acc
    rw [List.foldl_cons, ih, mem_insDesc]
    simp only [List.mem_cons]
    tauto

/-- A case-insensitive global replace of a nonempty text by a nonempty
replacement is nonempty: either no match occurred (the result is the
text) or the result contains the replacement. -/
theorem ciReplaceAll_ne_nil {t pat rep : List Char} (ht : t ≠ [])
    (hrep : rep ≠ []) : ciReplaceAll t pat rep ≠ [] := by
  unfold ciReplaceAll
  have hlen := ciSplit_length t pat
  have hjoin := ciSplit_join t pat
  cases hsegs : ciSplit t pat with
  | nil =>
    rw [hsegs] at hlen
    simp at hlen
  | cons s ss =>
    cases ss with
    | nil =>
      rw [hsegs] at hjoin hlen
      simp only [List.length_singleton] at hlen
      have hm : ciMats t pat = [] := List.length_eq_zero.mp (by omega)
      rw [hm] at hjoin
      simp only [joinAlt] at hjoin
      show s ≠ []
      rw [hjoin]
      exact ht
    | cons s1 ss1 =>
      rw [joinWith]
      intro hcontra
      rw [List.append_eq_nil, List.append_eq_nil] at hcontra
      exact hrep hcontra.1.2

theorem foldl_guard_eq :
    ∀ (l : List Detection) (acc : List Char),
      (∀ d ∈ l, d.original ≠ [] ∧ d.replacement ≠ []) →
      l.foldl (fun acc d =>
          if d.original ≠ [] ∧ d.replacement ≠ [] then
            ciReplaceAll acc d.original d.replacement
          else acc) acc
        = l.foldl (fun acc d => ciReplaceAll acc d.original d.replacement) acc := by
  intro l
  induction l with
  | nil => intro acc _; rfl
  | cons a as ih =>
    intro acc h
    rw [List.foldl_cons, List.foldl_cons, if_pos (h a (List.mem_cons_self a as))]
    exact ih _ (fun d hd => h d (List.mem_cons_of_mem a hd))

theorem foldl_ciReplaceAll_ne_nil :
    ∀ (l : List Detection) (acc : List Char),
      (∀ d ∈ l, d.replacement ≠ []) → acc ≠ [] →
      l.foldl (fun acc d => ciReplaceAll acc d.original d.replacement) acc ≠ [] := by
  intro l
  induction l with
  | nil => intro acc _ h; exact h
  | cons a as ih =>
    intro acc h hacc
    rw [List.foldl_cons]
    exact ih _ (fun d hd => h d (List.mem_cons_of_mem a hd))
      (ciReplaceAll_ne_nil hacc (h a (List.mem_cons_self a as)))

/-- C9: when the terminal complete event carries no authoritative
anonymized text (absent or empty) but a nonempty detection list whose
originals and replacements are all nonempty, the displayed final content
equals the prescribed reconstruction: sort the detections by
`original.length` descending and, in that order, case-insensitively
replace every literal occurrence of each `original` in the accumulated
content by its `replacement`. -/
theorem c9_streaming_reconstructor
    (anonymizedText : Option (List Char)) (dets : List Detection)
    (streamingContent : List Char)
    (hf : anonymizedText = none ∨ anonymizedText = some [])
    (hne : dets ≠ [])
    (hfields : ∀ d ∈ dets, d.original ≠ [] ∧ d.replacement ≠ []) :
    completeDisplayedContent anonymizedText (some dets) streamingContent
      = streamReconstructSpec streamingContent dets := by
  have hlen : 0 < dets.length := List.length_pos.mpr hne
  have hguard : (strFalsy anonymizedText &&
      decide (0 < ((some dets : Option (List Detection)).getD []).length))
        = true := by
    rcases hf with rfl | rfl <;> simp [strFalsy, hlen]
  simp only [completeDisplayedContent]
  rw [if_pos hguard]
  have heqF : streamFallbackContent streamingContent dets
      = streamReconstructSpec streamingContent dets := by
    unfold streamFallbackContent streamReconstructSpec
    exact foldl_guard_eq _ _ (fun d hd => hfields d ((mem_sortDescBy _ _ _).mp hd))
  show (if streamFallbackContent streamingContent dets = [] then streamingContent
    else streamFallbackContent streamingContent dets) = _
  rw [heqF]
  by_cases hS : streamReconstructSpec streamingContent dets = []
  · rw [if_pos hS, hS]
    by_contra hsc
    have hne2 := foldl_ciReplaceAll_ne_nil
      (sortDescBy (fun d => d.original.length) dets) streamingContent
      (fun d hd => (hfields d ((mem_sortDescBy _ _ _).mp hd)).2) hsc
    exact hne2 hS
  · rw [if_neg hS]

/-- C9 witness input. -/
def c9Det : Detection :=
  { type := str "name", original := str "Bob",
    replacement := str "[NAME_1]", confidence := 1,
    explanation := none, i := some 0 }

/-- C9 witness: `anonymized_text` absent, one detection, accumulated
content `Hi bob!`; the displayed content is the case-insensitive
reconstruction `Hi [NAME_1]!`. -/
theorem c9_witness :
    ((none : Option (List Char)) = none ∨
        (none : Option (List Char)) = some []) ∧
    ([c9Det] ≠ ([] : List Detection)) ∧
    (∀ d ∈ [c9Det], d.original ≠ [] ∧ d.replacement ≠ []) ∧
    completeDisplayedContent none (some [c9Det]) (str "Hi bob!")
      = streamReconstructSpec (str "Hi bob!") [c9Det] ∧
    streamReconstructSpec (str "Hi bob!") [c9Det] = str "Hi [NAME_1]!" := by
  refine ⟨Or.inl rfl, by decide, by decide,
    c9_streaming_reconstructor none [c9Det] (str "Hi bob!") (Or.inl rfl)
      (by decide) (by decide), by decide⟩

/-!  ## C8: Replace-All on a thrice-occurring substring (Scenario C) -/

theorem occursAt_of_prefix {t x y : List Char} {p : Nat} (hxy : x <+: y)
    (h : occursAt t y p) : occursAt t x p := by
  obtain ⟨z, rfl⟩ := hxy
  rcases occursAt_iff_append.mp h with ⟨u, v, huv, hulen⟩
  refine occursAt_iff_append.mpr ⟨u, z ++ v, ?_, hulen⟩
  rw [huv]
  simp [List.append_assoc]

theorem substrOf_trans {x s t : List Char} (h1 : substrOf x s)
    (h2 : substrOf s t) : substrOf x t := by
  rcases h1 with ⟨q, hq⟩
  rcases h2 with ⟨p, hp⟩
  rcases occursAt_iff_append.mp hq with ⟨u, v, rfl, hulen⟩
  rcases occursAt_iff_append.mp hp with ⟨a, b, rfl, halen⟩
  exact ⟨a.length + u.length, occursAt_iff_append.mpr
    ⟨a ++ u, v ++ b, by simp [List.append_assoc], by simp⟩⟩

/-- Shape facts of a bracketed token `[mid]` whose interior has no
brackets: first char `[`, last char `]`, and no other occurrence of
either bracket. -/
theorem bracket_shape (mid : List Char)
    (hmid : ∀ c ∈ mid, c ≠ '[' ∧ c ≠ ']') :
    ('[' :: (mid ++ [']']))[0]? = some '[' ∧
    (∀ j, 0 < j → ('[' :: (mid ++ [']']))[j]? ≠ some '[') ∧
    ('[' :: (mid ++ [']']))[('[' :: (mid ++ [']'])).length - 1]? = some ']' ∧
    (∀ j, j < ('[' :: (mid ++ [']'])).length - 1 →
      ('[' :: (mid ++ [']']))[j]? ≠ some ']') := by
  have hlen : ('[' :: (mid ++ [']'])).length = mid.length + 2 := by simp
  refine ⟨List.getElem?_cons_zero, ?_, ?_, ?_⟩
  · intro j hj
    obtain ⟨j1, rfl⟩ : ∃ j1, j = j1 + 1 := ⟨j - 1, by omega⟩
    rw [List.getElem?_cons_succ]
    by_cases hj1 : j1 < mid.length
    · rw [List.getElem?_append_left hj1, List.getElem?_eq_getElem hj1]
      intro hcontra
      exact (hmid _ (List.getElem_mem hj1)).1 (Option.some.inj hcontra)
    · rw [List.getElem?_append_right (by omega)]
      by_cases hj2 : j1 - mid.length < 1
      · have h0 : j1 - mid.length = 0 := by omega
        rw [h0, List.getElem?_cons_zero]
        intro hcontra
        cases Option.some.inj hcontra
      · rw [List.getElem?_eq_none (by simp; omega)]
        intro hcontra
        cases hcontra
  · have h1 : ('[' :: (mid ++ [']'])).length - 1 = mid.length + 1 := by
      rw [hlen]
      omega
    rw [h1, List.getElem?_cons_succ,
      List.getElem?_append_right (Nat.le_refl mid.length), Nat.sub_self,
      List.getElem?_cons_zero]
  · intro j hj
    rw [hlen] at hj
    cases j with
    | zero =>
      rw [List.getElem?_cons_zero]
      intro hcontra
      cases Option.some.inj hcontra
    | succ j1 =>
      rw [List.getElem?_cons_succ]
      have hj1 : j1 < mid.length := by omega
      rw [List.getElem?_append_left hj1, List.getElem?_eq_getElem hj1]
      intro hcontra
      exact (hmid _ (List.getElem_mem hj1)).2 (Option.some.inj hcontra)

theorem jpositions_length (L : Nat) :
    ∀ segs, (jpositions L segs).length = segs.length - 1
  | [] => by simp [jpositions]
  | [s] => by simp [jpositions]
  | s :: s1 :: ss => by
    rw [jpositions]
    simp only [List.length_cons, List.length_map]
    rw [jpositions_length L (s1 :: ss)]
    simp

theorem getPlaceholderType_no_brackets (ty : List Char) :
    ∀ c ∈ getPlaceholderType ty, c ≠ '[' ∧ c ≠ ']' := by
  unfold getPlaceholderType
  by_cases h1 : ty = str "name"
  · rw [if_pos h1]
    decide
  rw [if_neg h1]
  by_cases h2 : ty = str "email"
  · rw [if_pos h2]
    decide
  rw [if_neg h2]
  by_cases h3 : ty = str "phone"
  · rw [if_pos h3]
    decide
  rw [if_neg h3]
  by_cases h4 : ty = str "address"
  · rw [if_pos h4]
    decide
  rw [if_neg h4]
  by_cases h5 : ty = str "ssn"
  · rw [if_pos h5]
    decide
  rw [if_neg h5]
  by_cases h6 : ty = str "org"
  · rw [if_pos h6]
    decide
  rw [if_neg h6]
  by_cases h7 : ty = str "birth-date"
  · rw [if_pos h7]
    decide
  rw [if_neg h7]
  by_cases h8 : ty = str "id"
  · rw [if_pos h8]
    decide
  rw [if_neg h8]
  by_cases h9 : ty = str "proprietary"
  · rw [if_pos h9]
    decide
  rw [if_neg h9]
  by_cases h10 : ty = str "location"
  · rw [if_pos h10]
    decide
  rw [if_neg h10]
  by_cases h11 : ty = str "product"
  · rw [if_pos h11]
    decide
  rw [if_neg h11]
  by_cases h12 : ty = str "service"
  · rw [if_pos h12]
    decide
  rw [if_neg h12]
  by_cases h13 : ty = str "project"
  · rw [if_pos h13]
    decide
  rw [if_neg h13]
  decide

theorem collectPlaceholderNumbers_nil (text P : List Char)
    (h : ¬ substrOf ('[' :: (P ++ ['_'])) text) :
    collectPlaceholderNumbers text P = [] := by
  unfold collectPlaceholderNumbers
  rw [List.filterMap_eq_nil_iff]
  intro p _
  simp only [parseTokenNumAt]
  rw [if_neg]
  intro hocc
  exact h ⟨p, hocc⟩

/-- Under Scenario C\x27s freshness hypotheses the chosen placeholder is the
newly allocated `[P_1]`. -/
theorem chosenPlaceholder_fresh (text : List Char) (dets : List Detection)
    (S P : List Char)
    (hnocover : ∀ d ∈ dets,
      ¬(d.original = S ∧ (('[' :: (P ++ ['_'])).isPrefixOf d.replacement) = true))
    (hnotok : ¬ substrOf ('[' :: (P ++ ['_'])) text) :
    chosenPlaceholder text dets S P = '[' :: (P ++ '_' :: '1' :: [']']) := by
  unfold chosenPlaceholder existingPlaceholderFor
  rw [List.find?_eq_none.mpr (fun d hd hp => by
    rw [Bool.and_eq_true, decide_eq_true_eq] at hp
    exact hnocover d hd ⟨hp.1, hp.2⟩)]
  show '[' :: (P ++ '_' ::
    (Nat.toDigits 10 (allocNumber (collectPlaceholderNumbers text P)) ++ [']'])) = _
  rw [collectPlaceholderNumbers_nil text P hnotok]
  rw [show allocNumber [] = 1 from by decide]
  rw [show Nat.toDigits 10 1 = ['1'] from by decide]
  rfl

/-- The loop guard of the `insertIndex` computation, as a predicate. -/
def insP (nt : List Char) (pos : Int) (d : Detection) : Bool :=
  match indexOfOpt nt d.replacement with
  | some q => decide ((q : Int) < pos)
  | none => false

theorem insId_eq_takeWhile (nt : List Char) (pos : Int) :
    ∀ l : List Detection, insId nt pos l = (l.takeWhile (insP nt pos)).length := by
  intro l
  induction l with
  | nil => rfl
  | cons d rest ih =>
    cases hq : indexOfOpt nt d.replacement with
    | some q =>
      have hP : insP nt pos d = decide ((q : Int) < pos) := by
        unfold insP
        rw [hq]
      by_cases hlt : (q : Int) < pos
      · have hL : insId nt pos (d :: rest) = insId nt pos rest + 1 := by
          simp only [insId, hq]
          rw [if_pos hlt]
        rw [hL, ih, List.takeWhile_cons, hP, if_pos (decide_eq_true hlt),
          List.length_cons]
      · have hL : insId nt pos (d :: rest) = 0 := by
          simp only [insId, hq]
          rw [if_neg hlt]
        rw [hL, List.takeWhile_cons, hP,
          if_neg (by simp [hlt]), List.length_nil]
    | none =>
      have hP : insP nt pos d = false := by
        unfold insP
        rw [hq]
      have hL : insId nt pos (d :: rest) = 0 := by
        simp only [insId, hq]
      rw [hL, List.takeWhile_cons, hP, if_neg Bool.false_ne_true,
        List.length_nil]

theorem takeWhile_append_all {α : Type} (p : α → Bool) :
    ∀ (A rest : List α), (∀ a ∈ A, p a = true) →
      (A ++ rest).takeWhile p = A ++ rest.takeWhile p := by
  intro A
  induction A with
  | nil => intro rest _; rfl
  | cons a A1 ih =>
    intro rest h
    rw [List.cons_append, List.takeWhile_cons,
      if_pos (h a (List.mem_cons_self a A1)), List.cons_append,
      ih rest (fun x hx => h x (List.mem_cons_of_mem a hx))]

theorem take_length_takeWhile {α : Type} (p : α → Bool) (l : List α) :
    l.take (l.takeWhile p).length = l.takeWhile p := by
  calc l.take (l.takeWhile p).length
      = (l.takeWhile p ++ l.dropWhile p).take (l.takeWhile p).length := by
        rw [List.takeWhile_append_dropWhile]
    _ = l.takeWhile p := List.take_left _ _

theorem drop_length_takeWhile {α : Type} (p : α → Bool) (l : List α) :
    l.drop (l.takeWhile p).length = l.dropWhile p := by
  calc l.drop (l.takeWhile p).length
      = (l.takeWhile p ++ l.dropWhile p).drop (l.takeWhile p).length := by
        rw [List.takeWhile_append_dropWhile]
    _ = l.dropWhile p := List.drop_left _ _

theorem length_renumberFrom (start : Nat) (l : List Detection) :
    (renumberFrom start l).length = l.length := by
  unfold renumberFrom
  rw [List.length_map, List.enum_length]

theorem length_insertDetectionAt {l : List Detection} {n : Nat} (d : Detection)
    (hn : n ≤ l.length) :
    (insertDetectionAt l n d).length = l.length + 1 := by
  unfold insertDetectionAt
  rw [List.length_append, List.length_cons, length_renumberFrom,
    List.length_take, List.length_drop, Nat.min_eq_left hn]
  omega

theorem insertDetectionAt_getElem_self {l : List Detection} {n : Nat}
    (d : Detection) (hn : n ≤ l.length) :
    (insertDetectionAt l n d)[n]? = some d := by
  unfold insertDetectionAt
  rw [List.getElem?_append_right (by rw [List.length_take]; omega),
    List.length_take, Nat.min_eq_left hn, Nat.sub_self,
    List.getElem?_cons_zero]

theorem insertDetectionAt_getElem_lt {l : List Detection} {n j : Nat}
    (d : Detection) (hj : j < n) (hn : n ≤ l.length) :
    (insertDetectionAt l n d)[j]? = l[j]? := by
  unfold insertDetectionAt
  rw [List.getElem?_append_left
    (by rw [List.length_take, Nat.min_eq_left hn]; omega)]
  exact List.getElem?_take_of_lt hj

theorem insertDetectionAt_take {l : List Detection} {n k : Nat} (d : Detection)
    (hk : k ≤ n) (hn : n ≤ l.length) :
    (insertDetectionAt l n d).take k = l.take k := by
  unfold insertDetectionAt
  rw [List.take_append_of_le_length
    (by rw [List.length_take, Nat.min_eq_left hn]; omega)]
  rw [List.take_take, Nat.min_eq_left hk]

theorem origRepl_renumberFrom {start : Nat} {l : List Detection}
    {d1 : Detection} (h : d1 ∈ renumberFrom start l) :
    ∃ d ∈ l, d1.original = d.original ∧ d1.replacement = d.replacement := by
  unfold renumberFrom at h
  rcases List.mem_map.mp h with ⟨kd, hkd, rfl⟩
  have hmem : kd.2 ∈ l := List.getElem?_mem (List.mem_enum_iff_getElem?.mp hkd)
  by_cases hi : kd.2.i.isSome
  · exact ⟨kd.2, hmem, by rw [if_pos hi], by rw [if_pos hi]⟩
  · exact ⟨kd.2, hmem, by rw [if_neg hi], by rw [if_neg hi]⟩

theorem insertDetectionAt_origRepl {l : List Detection} {n : Nat}
    {d x : Detection} (hx : x ∈ insertDetectionAt l n d) :
    x = d ∨ ∃ y ∈ l, x.original = y.original ∧ x.replacement = y.replacement := by
  unfold insertDetectionAt at hx
  rcases List.mem_append.mp hx with htake | hrest
  · exact Or.inr ⟨x, List.mem_of_mem_take htake, rfl, rfl⟩
  · rcases List.mem_cons.mp hrest with rfl | hren
    · exact Or.inl rfl
    · rcases origRepl_renumberFrom hren with ⟨y, hy, ho, hr⟩
      exact Or.inr ⟨y, List.mem_of_mem_drop hy, ho, hr⟩

/-- The body of the `replacementPositions.forEach` loop of
`handleReplaceAll`, as a named step function. -/
def tagStep (newText S ph ty : List Char) (dets : List Detection)
    (position : Nat) : List Detection :=
  let alreadyThere := dets.any (fun d =>
    decide (d.original = S) && decide (d.replacement = ph) &&
    decide (indexOfOpt newText d.replacement = some position))
  if alreadyThere then dets
  else
    let insertIndex := insId newText (position : Int) dets
    insertDetectionAt dets insertIndex
      { type := ty, original := S, replacement := ph, confidence := 1,
        explanation := some (str "Manually tagged as " ++ ty),
        i := some insertIndex }

theorem handleReplaceAll_eq_fold (text S ty : List Char)
    (dets : List Detection) :
    handleReplaceAll text dets S ty
      = ⟨ciReplaceAll text S (chosenPlaceholder text dets S (getPlaceholderType ty)),
         (findAllFrom
             (ciReplaceAll text S (chosenPlaceholder text dets S (getPlaceholderType ty)))
             (chosenPlaceholder text dets S (getPlaceholderType ty)) 0).foldl
           (tagStep
             (ciReplaceAll text S (chosenPlaceholder text dets S (getPlaceholderType ty)))
             S (chosenPlaceholder text dets S (getPlaceholderType ty)) ty) dets⟩ :=
  rfl

theorem tagStep_insert {nt S ph ty : List Char} {dets : List Detection}
    {m : Nat}
    (hany : ∀ d ∈ dets, ¬(d.original = S ∧ d.replacement = ph ∧
      indexOfOpt nt d.replacement = some m)) :
    tagStep nt S ph ty dets m
      = insertDetectionAt dets (insId nt (m : Int) dets)
          { type := ty, original := S, replacement := ph, confidence := 1,
            explanation := some (str "Manually tagged as " ++ ty),
            i := some (insId nt (m : Int) dets) } := by
  unfold tagStep
  rw [if_neg]
  intro hcontra
  rw [List.any_eq_true] at hcontra
  obtain ⟨d, hd, hdp⟩ := hcontra
  rw [Bool.and_eq_true, Bool.and_eq_true, decide_eq_true_eq,
    decide_eq_true_eq, decide_eq_true_eq] at hdp
  exact hany d hd ⟨hdp.1.1, hdp.1.2, hdp.2⟩

/-- The freshly allocated placeholder of Scenario C: `[P_1]` for the
chosen type. -/
def c8Ph (ty : List Char) : List Char :=
  '[' :: (getPlaceholderType ty ++ '_' :: '1' :: [']'])

/-- The detection record Replace-All splices in at insertion index `n`. -/
def c8Mk (S ty : List Char) (n : Nat) : Detection :=
  { type := ty, original := S, replacement := c8Ph ty, confidence := 1,
    explanation := some (str "Manually tagged as " ++ ty), i := some n }

/-- C8: Replace-All on a thrice-occurring substring (Scenario C).  When
the text carries no token of the chosen placeholder type and no detection
covers `(S, [P_-prefix)`, and `S` has exactly three case-insensitive
matches, Replace-All allocates the single fresh placeholder `[P_1]`,
substitutes it for all three matches (its occurrences in the new text are
exactly the three junction positions, which the position collector
returns in left-to-right order), and splices exactly three new
detections, whose `i` values are assigned in strictly ascending
left-to-right order, leaving the detections positioned before the first
match (the stable prefix up to the first insertion index) untouched. -/
theorem c8_replace_all_thrice
    (text : List Char) (dets : List Detection) (S ty : List Char)
    (hnotok : ¬ substrOf ('[' :: (getPlaceholderType ty ++ ['_'])) text)
    (hnocover : ∀ d ∈ dets,
      ¬(d.original = S ∧
        (('[' :: (getPlaceholderType ty ++ ['_'])).isPrefixOf d.replacement) = true))
    (h3 : (matchPositionsCI text S).length = 3) :
    chosenPlaceholder text dets S (getPlaceholderType ty) = c8Ph ty ∧
    (handleReplaceAll text dets S ty).newText = ciReplaceAll text S (c8Ph ty) ∧
    (∃ m0 m1 m2, m0 < m1 ∧ m1 < m2 ∧
      (∀ p, occursAt (ciReplaceAll text S (c8Ph ty)) (c8Ph ty) p ↔
        p ∈ [m0, m1, m2]) ∧
      findAllFrom (ciReplaceAll text S (c8Ph ty)) (c8Ph ty) 0 = [m0, m1, m2]) ∧
    (∃ n0 n1 n2, n0 < n1 ∧ n1 < n2 ∧
      (handleReplaceAll text dets S ty).newDetections.length = dets.length + 3 ∧
      (handleReplaceAll text dets S ty).newDetections[n0]? = some (c8Mk S ty n0) ∧
      (handleReplaceAll text dets S ty).newDetections[n1]? = some (c8Mk S ty n1) ∧
      (handleReplaceAll text dets S ty).newDetections[n2]? = some (c8Mk S ty n2) ∧
      (handleReplaceAll text dets S ty).newDetections.take n0 = dets.take n0) := by
  have hbr := getPlaceholderType_no_brackets ty
  have hph : chosenPlaceholder text dets S (getPlaceholderType ty) = c8Ph ty :=
    chosenPlaceholder_fresh text dets S (getPlaceholderType ty) hnocover hnotok
  have hshape : c8Ph ty = '[' :: ((getPlaceholderType ty ++ ['_', '1']) ++ [']']) := by
    unfold c8Ph
    simp [List.append_assoc]
  have hmid : ∀ c ∈ (getPlaceholderType ty ++ ['_', '1']), c ≠ '[' ∧ c ≠ ']' := by
    intro c hc
    rcases List.mem_append.mp hc with h | h
    · exact hbr c h
    · simp only [List.mem_cons, List.mem_singleton] at h
      rcases h with rfl | rfl | h
      · decide
      · decide
      · cases h
  obtain ⟨hh, hi1, hl, hi2⟩ := bracket_shape (getPlaceholderType ty ++ ['_', '1']) hmid
  rw [← hshape] at hh hi1 hl hi2
  have hPh_ne : c8Ph ty ≠ [] := by
    unfold c8Ph
    exact List.cons_ne_nil _ _
  have hL1 : 1 ≤ (c8Ph ty).length := List.length_pos.mpr hPh_ne
  have hheadpre : ('[' :: (getPlaceholderType ty ++ ['_'])) <+: c8Ph ty := by
    refine ⟨'1' :: [']'], ?_⟩
    unfold c8Ph
    simp
  have hsegs : ∀ s ∈ ciSplit text S, ¬ substrOf (c8Ph ty) s := by
    intro s hs hsub
    have h1 : substrOf s text := by
      have h2 := substrOf_of_mem_joinAlt (ciSplit text S) (ciMats text S) s
        (ciSplit_length text S) hs
      rwa [ciSplit_join text S] at h2
    rcases hsub with ⟨q, hq⟩
    have hq1 : occursAt s ('[' :: (getPlaceholderType ty ++ ['_'])) q :=
      occursAt_of_prefix hheadpre hq
    exact hnotok (substrOf_trans ⟨q, hq1⟩ h1)
  have hocc_iff := occursAt_joinWith_iff hPh_ne hh hi1 hl hi2 (ciSplit text S) hsegs
  have hjlen : (jpositions (c8Ph ty).length (ciSplit text S)).length = 3 := by
    rw [jpositions_length]
    have h4 := h3
    unfold matchPositionsCI at h4
    rw [jpositions_length] at h4
    exact h4
  obtain ⟨m0, m1, m2, hjl⟩ := List.length_eq_three.mp hjlen
  have hpw := jpositions_pairwise (c8Ph ty).length (ciSplit text S)
  rw [hjl] at hpw hocc_iff
  rw [List.pairwise_cons] at hpw
  have hp1 := hpw.1 m1 (by simp)
  have hp2 := hpw.1 m2 (by simp)
  have hpw2 := hpw.2
  rw [List.pairwise_cons] at hpw2
  have hp3 := hpw2.1 m2 (by simp)
  have hm01 : m0 < m1 := by omega
  have hm12 : m1 < m2 := by omega
  have hiffnt : ∀ p, occursAt (ciReplaceAll text S (c8Ph ty)) (c8Ph ty) p ↔
      p ∈ [m0, m1, m2] := fun p => hocc_iff p
  have hfind : findAllFrom (ciReplaceAll text S (c8Ph ty)) (c8Ph ty) 0
      = [m0, m1, m2] := by
    apply findAllFrom_eq hPh_ne
    · rw [← hjl]
      exact jpositions_pairwise _ _
    · intro p
      constructor
      · rintro ⟨ho, _⟩
        exact (hiffnt p).mp ho
      · intro hm
        exact ⟨(hiffnt p).mpr hm, Nat.zero_le p⟩
  have hidx0 : indexOfOpt (ciReplaceAll text S (c8Ph ty)) (c8Ph ty) = some m0 := by
    obtain ⟨r, hr, hrle⟩ := indexOfFrom_le (Nat.zero_le m0)
      ((hiffnt m0).mpr (by simp))
    have hrprops := indexOfFrom_eq_some hr
    have hrmem := (hiffnt r).mp hrprops.2.1
    simp only [List.mem_cons, List.mem_singleton, List.not_mem_nil, or_false] at hrmem
    have hrm0 : r = m0 := by
      rcases hrmem with rfl | rfl | rfl <;> omega
    subst hrm0
    exact hr
  set nt := ciReplaceAll text S (c8Ph ty) with hntdef
  have h0 : ∀ m : Nat, ∀ d ∈ dets, ¬(d.original = S ∧ d.replacement = c8Ph ty ∧
      indexOfOpt nt d.replacement = some m) := by
    rintro m d hd ⟨ho, hr, -⟩
    refine hnocover d hd ⟨ho, ?_⟩
    rw [hr, List.isPrefixOf_iff_prefix]
    exact hheadpre
  have hD1eq : tagStep nt S (c8Ph ty) ty dets m0
      = insertDetectionAt dets (insId nt (m0 : Int) dets)
          (c8Mk S ty (insId nt (m0 : Int) dets)) := by
    rw [tagStep_insert (h0 m0)]
    rfl
  set k0 := insId nt (m0 : Int) dets with hk0def
  set D1 := insertDetectionAt dets k0 (c8Mk S ty k0) with hD1def
  set A := dets.takeWhile (insP nt (m0 : Int)) with hAdef
  have hk0tw : k0 = A.length := by
    rw [hk0def, hAdef]
    exact insId_eq_takeWhile nt _ dets
  have hk0le : k0 ≤ dets.length := by
    rw [hk0tw, hAdef]
    exact (List.takeWhile_prefix _).length_le
  have hD1struct : D1 = A ++ c8Mk S ty k0 :: renumberFrom (k0 + 1) (dets.drop k0) := by
    rw [hD1def]
    unfold insertDetectionAt
    congr 1
    rw [hk0tw, hAdef]
    exact take_length_takeWhile _ _
  have hAall : ∀ a ∈ A, insP nt (m0 : Int) a = true := by
    intro a ha
    rw [hAdef] at ha
    exact List.mem_takeWhile_imp ha
  have hmono01 : ∀ a, insP nt (m0 : Int) a = true → insP nt (m1 : Int) a = true := by
    intro a h
    unfold insP at h ⊢
    cases hq : indexOfOpt nt a.replacement with
    | some q =>
      rw [hq] at h
      have hlt := of_decide_eq_true h
      exact decide_eq_true (by omega)
    | none =>
      rw [hq] at h
      cases h
  have hmkQ1 : insP nt (m1 : Int) (c8Mk S ty k0) = true := by
    unfold insP
    have hx : indexOfOpt nt (c8Mk S ty k0).replacement = some m0 := hidx0
    rw [hx]
    exact decide_eq_true (by exact_mod_cast hm01)
  have hinv1 : ∀ x ∈ D1, x.original = S → x.replacement = c8Ph ty →
      indexOfOpt nt x.replacement = some m0 := by
    intro x hx hxo hxr
    rw [hD1def] at hx
    rcases insertDetectionAt_origRepl hx with rfl | ⟨y, hy, ho, hr⟩
    · exact hidx0
    · have hyidx : ('[' :: (getPlaceholderType ty ++ ['_'])).isPrefixOf y.replacement = true := by
        rw [← hr, hxr, List.isPrefixOf_iff_prefix]
        exact hheadpre
      exact absurd ⟨ho.symm.trans hxo, hyidx⟩ (hnocover y hy)
  have h1any : ∀ d ∈ D1, ¬(d.original = S ∧ d.replacement = c8Ph ty ∧
      indexOfOpt nt d.replacement = some m1) := by
    rintro d hd ⟨ho, hr, hix⟩
    rw [hinv1 d hd ho hr] at hix
    exact absurd (Option.some.inj hix) (by omega)
  have hD2eq : tagStep nt S (c8Ph ty) ty D1 m1
      = insertDetectionAt D1 (insId nt (m1 : Int) D1)
          (c8Mk S ty (insId nt (m1 : Int) D1)) := by
    rw [tagStep_insert h1any]
    rfl
  set k1 := insId nt (m1 : Int) D1 with hk1def
  set D2 := insertDetectionAt D1 k1 (c8Mk S ty k1) with hD2def
  have hk1val : k1 = k0 + 1 +
      ((renumberFrom (k0 + 1) (dets.drop k0)).takeWhile (insP nt (m1 : Int))).length := by
    rw [hk1def, insId_eq_takeWhile, hD1struct,
      takeWhile_append_all _ A _ (fun a ha => hmono01 a (hAall a ha)),
      List.takeWhile_cons, if_pos hmkQ1, List.length_append, List.length_cons]
    omega
  have hk01 : k0 < k1 := by omega
  have hk1le : k1 ≤ D1.length := by
    rw [hk1def, insId_eq_takeWhile]
    exact (List.takeWhile_prefix _).length_le
  have hD1len : D1.length = dets.length + 1 := by
    rw [hD1def]
    exact length_insertDetectionAt _ hk0le
  have hinv2 : ∀ x ∈ D2, x.original = S → x.replacement = c8Ph ty →
      indexOfOpt nt x.replacement = some m0 := by
    intro x hx hxo hxr
    rw [hD2def] at hx
    rcases insertDetectionAt_origRepl hx with rfl | ⟨y, hy, ho, hr⟩
    · exact hidx0
    · have hyidx := hinv1 y hy (ho.symm.trans hxo) (hr.symm.trans hxr)
      rw [hr]
      exact hyidx
  have h2any : ∀ d ∈ D2, ¬(d.original = S ∧ d.replacement = c8Ph ty ∧
      indexOfOpt nt d.replacement = some m2) := by
    rintro d hd ⟨ho, hr, hix⟩
    rw [hinv2 d hd ho hr] at hix
    exact absurd (Option.some.inj hix) (by omega)
  have hD3eq : tagStep nt S (c8Ph ty) ty D2 m2
      = insertDetectionAt D2 (insId nt (m2 : Int) D2)
          (c8Mk S ty (insId nt (m2 : Int) D2)) := by
    rw [tagStep_insert h2any]
    rfl
  set k2 := insId nt (m2 : Int) D2 with hk2def
  set D3 := insertDetectionAt D2 k2 (c8Mk S ty k2) with hD3def
  have hCtw : D1.take k1 = D1.takeWhile (insP nt (m1 : Int)) := by
    rw [hk1def, insId_eq_takeWhile]
    exact take_length_takeWhile _ _
  have hD2struct : D2 = D1.takeWhile (insP nt (m1 : Int)) ++
      c8Mk S ty k1 :: renumberFrom (k1 + 1) (D1.drop k1) := by
    rw [hD2def]
    unfold insertDetectionAt
    rw [hCtw]
  have hmono12 : ∀ a, insP nt (m1 : Int) a = true → insP nt (m2 : Int) a = true := by
    intro a h
    unfold insP at h ⊢
    cases hq : indexOfOpt nt a.replacement with
    | some q =>
      rw [hq] at h
      have hlt := of_decide_eq_true h
      exact decide_eq_true (by omega)
    | none =>
      rw [hq] at h
      cases h
  have hmkQ2 : insP nt (m2 : Int) (c8Mk S ty k1) = true := by
    unfold insP
    have hx : indexOfOpt nt (c8Mk S ty k1).replacement = some m0 := hidx0
    rw [hx]
    have hlt : m0 < m2 := by omega
    exact decide_eq_true (by exact_mod_cast hlt)
  have hlen1 : (D1.takeWhile (insP nt (m1 : Int))).length = k1 :=
    (hk1def.trans (insId_eq_takeWhile nt _ D1)).symm
  have hk2val : k2 = k1 + 1 +
      ((renumberFrom (k1 + 1) (D1.drop k1)).takeWhile (insP nt (m2 : Int))).length := by
    rw [hk2def, insId_eq_takeWhile, hD2struct,
      takeWhile_append_all _ _ _
        (fun a ha => hmono12 a (List.mem_takeWhile_imp ha)),
      List.takeWhile_cons, if_pos hmkQ2, List.length_append, List.length_cons,
      hlen1]
    omega
  have hk12 : k1 < k2 := by omega
  have hk2le : k2 ≤ D2.length := by
    rw [hk2def, insId_eq_takeWhile]
    exact (List.takeWhile_prefix _).length_le
  have hD2len : D2.length = dets.length + 2 := by
    rw [hD2def, length_insertDetectionAt _ hk1le, hD1len]
  have hD3len : D3.length = dets.length + 3 := by
    rw [hD3def, length_insertDetectionAt _ hk2le, hD2len]
  have hg2 : D3[k2]? = some (c8Mk S ty k2) := by
    rw [hD3def]
    exact insertDetectionAt_getElem_self _ hk2le
  have hg1 : D3[k1]? = some (c8Mk S ty k1) := by
    rw [hD3def, insertDetectionAt_getElem_lt _ hk12 hk2le, hD2def]
    exact insertDetectionAt_getElem_self _ hk1le
  have hg0 : D3[k0]? = some (c8Mk S ty k0) := by
    rw [hD3def, insertDetectionAt_getElem_lt _ (lt_trans hk01 hk12) hk2le,
      hD2def, insertDetectionAt_getElem_lt _ hk01 hk1le, hD1def]
    exact insertDetectionAt_getElem_self _ hk0le
  have hgtake : D3.take k0 = dets.take k0 := by
    rw [hD3def, insertDetectionAt_take _ (le_of_lt (lt_trans hk01 hk12)) hk2le,
      hD2def, insertDetectionAt_take _ (le_of_lt hk01) hk1le,
      hD1def, insertDetectionAt_take _ (le_refl k0) hk0le]
  have hout : handleReplaceAll text dets S ty = ⟨nt, D3⟩ := by
    rw [handleReplaceAll_eq_fold, hph, ← hntdef, hfind,
      List.foldl_cons, List.foldl_cons, List.foldl_cons, List.foldl_nil,
      hD1eq, hD2eq, hD3eq]
  refine ⟨hph, ?_, ⟨m0, m1, m2, hm01, hm12, hiffnt, hfind⟩,
    ⟨k0, k1, k2, hk01, hk12, ?_, ?_, ?_, ?_, ?_⟩⟩
  · rw [hout]
  · rw [hout]
    exact hD3len
  · rw [hout]
    exact hg0
  · rw [hout]
    exact hg1
  · rw [hout]
    exact hg2
  · rw [hout]
    exact hgtake

/-- C8 witness input: `Acme Corp` appearing three times with varying
case. -/
def c8Text : List Char := str "Acme Corp a acme corp b ACME CORP"

/-- C8 witness: Scenario C at a concrete text with an empty detection
array: one fresh placeholder `[ORG_1]`, three substitutions, three new
detections with `i = 0, 1, 2` in left-to-right order. -/
theorem c8_witness :
    ¬ substrOf ('[' :: (getPlaceholderType (str "org") ++ ['_'])) c8Text ∧
    (∀ d ∈ ([] : List Detection),
      ¬(d.original = str "Acme Corp" ∧
        (('[' :: (getPlaceholderType (str "org") ++ ['_'])).isPrefixOf
          d.replacement) = true)) ∧
    (matchPositionsCI c8Text (str "Acme Corp")).length = 3 ∧
    (chosenPlaceholder c8Text [] (str "Acme Corp")
        (getPlaceholderType (str "org")) = c8Ph (str "org") ∧
      (handleReplaceAll c8Text [] (str "Acme Corp") (str "org")).newText
        = ciReplaceAll c8Text (str "Acme Corp") (c8Ph (str "org")) ∧
      (∃ m0 m1 m2, m0 < m1 ∧ m1 < m2 ∧
        (∀ p, occursAt (ciReplaceAll c8Text (str "Acme Corp") (c8Ph (str "org")))
            (c8Ph (str "org")) p ↔ p ∈ [m0, m1, m2]) ∧
        findAllFrom (ciReplaceAll c8Text (str "Acme Corp") (c8Ph (str "org")))
          (c8Ph (str "org")) 0 = [m0, m1, m2]) ∧
      (∃ n0 n1 n2, n0 < n1 ∧ n1 < n2 ∧
        (handleReplaceAll c8Text [] (str "Acme Corp") (str "org")).newDetections.length
          = ([] : List Detection).length + 3 ∧
        (handleReplaceAll c8Text [] (str "Acme Corp") (str "org")).newDetections[n0]?
          = some (c8Mk (str "Acme Corp") (str "org") n0) ∧
        (handleReplaceAll c8Text [] (str "Acme Corp") (str "org")).newDetections[n1]?
          = some (c8Mk (str "Acme Corp") (str "org") n1) ∧
        (handleReplaceAll c8Text [] (str "Acme Corp") (str "org")).newDetections[n2]?
          = some (c8Mk (str "Acme Corp") (str "org") n2) ∧
        (handleReplaceAll c8Text [] (str "Acme Corp") (str "org")).newDetections.take n0
          = ([] : List Detection).take n0)) ∧
    (handleReplaceAll c8Text [] (str "Acme Corp") (str "org")).newText
      = str "[ORG_1] a [ORG_1] b [ORG_1]" ∧
    (handleReplaceAll c8Text [] (str "Acme Corp") (str "org")).newDetections
      = [c8Mk (str "Acme Corp") (str "org") 0,
         c8Mk (str "Acme Corp") (str "org") 1,
         c8Mk (str "Acme Corp") (str "org") 2] := by
  refine ⟨by decide, by decide, by decide,
    c8_replace_all_thrice c8Text [] (str "Acme Corp") (str "org")
      (by decide) (by decide) (by decide),
    by decide, by decide⟩

end ChatAnon
